import Mathlib

/-!
Shallow embedding of the rosm_mvt Mapbox-vector-tile writer
(`src/write.rs`, `src/common.rs`, `src/error.rs`) and proofs about it.

Machine-integer conventions used throughout:
* Rust `i32` values are modelled as `Int` together with explicit range
  checks.  All `i32` additions, subtractions and multiplications that Rust
  performs with plain operators (which panic on overflow when overflow
  checks are enabled) are modelled by checked operations returning
  `Option Int`; `none` models the arithmetic-overflow panic.
* Rust `u32` values are modelled as `Nat` with explicit `% 2^32` at the
  points where the source truncates (`as u32` casts and `<<` wrap-around).
* Rust `u64` ids are modelled as `Nat`; `f32`/`f64` attribute payloads are
  modelled by their bit patterns (`Nat`), since the source only ever
  compares them and never computes with them.
-/

namespace Mvt

/-! ### The i32 machine-integer model -/

def i32min : Int := -2147483648

def i32max : Int := 2147483647

/-- `n` fits in a Rust `i32`. -/
def inI32 (n : Int) : Prop := i32min ≤ n ∧ n ≤ i32max

instance (n : Int) : Decidable (inI32 n) := by
  unfold inI32; infer_instance

/-- Checked i32 result: `none` models Rust's debug-profile overflow panic. -/
def chk (n : Int) : Option Int := if inI32 n then some n else none

def addI32 (a b : Int) : Option Int := chk (a + b)

def subI32 (a b : Int) : Option Int := chk (a - b)

def mulI32 (a b : Int) : Option Int := chk (a * b)

/-- The `as u32` two's-complement cast of an i32-ranged value. -/
def toU32 (n : Int) : Nat := (n % 4294967296).toNat

/-! ### `common.rs`: the `Value` union and its derived equality -/

/-- `Value` from `common.rs`.  `Float`/`Double` carry the IEEE-754 bit
pattern of the `f32`/`f64` payload; `Int`/`SInt` are `i64`, `UInt` is
`u64`. -/
inductive Value where
  | String (s : String)
  | Float (bits : Nat)
  | Double (bits : Nat)
  | Int (i : Int)
  | UInt (n : Nat)
  | SInt (i : Int)
  | Bool (b : Bool)
deriving DecidableEq

/-- Bit pattern is an f32 NaN: exponent all ones, non-zero mantissa. -/
def f32IsNaN (b : Nat) : Bool := (b / 8388608) % 256 == 255 && b % 8388608 != 0

/-- Bit pattern is an f32 zero (+0.0 or -0.0). -/
def f32IsZero (b : Nat) : Bool := b % 2147483648 == 0

/-- IEEE-754 `==` on f32 bit patterns, as performed by Rust's derived
`PartialEq` on an `f32` field: NaN compares unequal to everything
(including itself) and +0.0 == -0.0. -/
def f32Eq (a b : Nat) : Bool :=
  if f32IsNaN a || f32IsNaN b then false
  else if f32IsZero a && f32IsZero b then true
  else a == b

/-- Bit pattern is an f64 NaN. -/
def f64IsNaN (b : Nat) : Bool :=
  (b / 4503599627370496) % 2048 == 2047 && b % 4503599627370496 != 0

/-- Bit pattern is an f64 zero (+0.0 or -0.0). -/
def f64IsZero (b : Nat) : Bool := b % 9223372036854775808 == 0

/-- IEEE-754 `==` on f64 bit patterns (Rust `f64` `PartialEq`). -/
def f64Eq (a b : Nat) : Bool :=
  if f64IsNaN a || f64IsNaN b then false
  else if f64IsZero a && f64IsZero b then true
  else a == b

/-- The `#[derive(PartialEq)]` equality of `Value` in `common.rs`:
per-variant, payload comparison by the payload type's `==`, which for the
`f32`/`f64` payloads is IEEE-754 equality (not bit equality — the source
carries a `TODO: binary equality for f32/f64`). -/
def valueEq : Value → Value → Bool
  | .String a, .String b => a == b
  | .Float a, .Float b => f32Eq a b
  | .Double a, .Double b => f64Eq a b
  | .Int a, .Int b => a == b
  | .UInt a, .UInt b => a == b
  | .SInt a, .SInt b => a == b
  | .Bool a, .Bool b => a == b
  | _, _ => false

instance {ε α : Type} [DecidableEq ε] [DecidableEq α] : DecidableEq (Except ε α) :=
  fun a b =>
    match a, b with
    | .ok x, .ok y =>
      if h : x = y then .isTrue (by rw [h]) else .isFalse (by simp [h])
    | .error x, .error y =>
      if h : x = y then .isTrue (by rw [h]) else .isFalse (by simp [h])
    | .ok _, .error _ => .isFalse (by simp)
    | .error _, .ok _ => .isFalse (by simp)

/-! ### `error.rs`: the two error taxonomies -/

inductive SpecViolation where
  | EmptyTile
  | IdenticalLayerNames (name : String)
  | EmptyLayer
  | IdenticalFeatureIds (id : Nat)
  | IdenticalAttributeKeys (key : String)
deriving DecidableEq

inductive InvalidGeometry where
  | EmptyPointGeometry
  | EmptyLineGeometry
  | InvalidLineGeometry
  | EmptyPolygonGeometry
  | InvalidPolygonGeometry
deriving DecidableEq

/-! ### `write.rs`: geometry commands and the command-stream encoder -/

abbrev TileCoord := Int × Int

inductive Command where
  | MoveTo (c : TileCoord)
  | LineTo (c : TileCoord)
  | ClosePath
deriving DecidableEq

/-- `encode_command` from `write.rs` lines 203–209.  `count` is the
`cb.len() as u32` value supplied by the caller; the `count << 3` is a u32
shift, hence the explicit `% 2^32`.  Note that the `ClosePath` arm ignores
`count` and emits the bare id `7`. -/
def encode_command (command : Command) (count : Nat) : Nat :=
  match command with
  | .MoveTo _ => (1 &&& 0x7) ||| ((count <<< 3) % 4294967296)
  | .LineTo _ => (2 &&& 0x7) ||| ((count <<< 3) % 4294967296)
  | .ClosePath => (7 &&& 0x7)

/-- `encode_param` from `write.rs` lines 211–213:
`((param << 1) ^ (param >> 31)) as u32` on `i32`.  The arithmetic shift
`param >> 31` is `0` for `param ≥ 0` and `-1` for `param < 0`; xor with
`0` is the identity and xor with `-1` is two's-complement negation minus
one (`x ^ -1 = -x - 1`).  Since `param << 1` wraps modulo `2^32` and the
final `as u32` cast also reduces modulo `2^32`, the composite is exactly
`(2·param) mod 2^32` for non-negative `param` and
`(-2·param - 1) mod 2^32` for negative `param`. -/
def encode_param (param : Int) : Nat :=
  toU32 (if param < 0 then -(2 * param) - 1 else 2 * param)

/-- `diff_to` from `write.rs` lines 215–217, with checked i32 subtraction. -/
def diff_to (src dst : TileCoord) : Option TileCoord :=
  match subI32 dst.1 src.1 with
  | none => none
  | some dx =>
    match subI32 dst.2 src.2 with
    | none => none
    | some dy => some (dx, dy)

/-- The `move_cursor` closure of `encode_geometry`: returns the delta and
the advanced cursor. -/
def move_cursor (cursor dst : TileCoord) : Option (TileCoord × TileCoord) :=
  match diff_to cursor dst with
  | none => none
  | some d => some (d, dst)

/-- The parameter-emission loop inside `flush_command_buffer`: each
`MoveTo`/`LineTo` contributes its zigzagged delta pair and advances the
cursor; a `ClosePath` inside the buffer hits the source's
`assert!(false)`, modelled as `none`. -/
def flushParams : List Command → TileCoord → Option (List Nat × TileCoord)
  | [], cursor => some ([], cursor)
  | .MoveTo c :: rest, cursor =>
    match move_cursor cursor c with
    | none => none
    | some (d, cursor1) =>
      match flushParams rest cursor1 with
      | none => none
      | some (ps, fin) => some (encode_param d.1 :: encode_param d.2 :: ps, fin)
  | .LineTo c :: rest, cursor =>
    match move_cursor cursor c with
    | none => none
    | some (d, cursor1) =>
      match flushParams rest cursor1 with
      | none => none
      | some (ps, fin) => some (encode_param d.1 :: encode_param d.2 :: ps, fin)
  | .ClosePath :: _, _ => none

/-- `flush_command_buffer` from `write.rs` lines 231–250: on a non-empty
buffer, emit one command word built from the buffer's first command and
its length (`cb.len() as u32`), followed by the parameter words. -/
def flush_command_buffer (buf : List Command) (cursor : TileCoord) :
    Option (List Nat × TileCoord) :=
  match buf with
  | [] => some ([], cursor)
  | c :: _ =>
    match flushParams buf cursor with
    | none => none
    | some (ps, fin) => some (encode_command c (buf.length % 4294967296) :: ps, fin)

/-- Loop state of `encode_geometry`:
`run` is the slice `commands[start..=i]` held by `command_buffer` (empty
iff `start` is `None`), where `i` is the index of the last `MoveTo`/`LineTo`
processed since `start` was last set.  `pendC` records the `ClosePath`
commands encountered since that index while the run is live: the source's
slice `&commands[start..=idx]` silently re-absorbs them when the run is
extended, which the step function reproduces. -/
structure EncState where
  run : List Command
  pendC : List Command
  cursor : TileCoord
  out : List Nat

/-- One iteration of the `for (idx, command)` loop of `encode_geometry`
(`write.rs` lines 254–282). -/
def encGeoStep (st : EncState) (c : Command) : Option EncState :=
  match c with
  | .MoveTo _ =>
    match st.run.getLast? with
    | some (.LineTo _) =>
      match flush_command_buffer st.run st.cursor with
      | none => none
      | some (ws, cursor1) => some ⟨[c], [], cursor1, st.out ++ ws⟩
    | _ =>
      match st.run with
      | [] => some ⟨[c], [], st.cursor, st.out⟩
      | _ => some ⟨st.run ++ st.pendC ++ [c], [], st.cursor, st.out⟩
  | .LineTo _ =>
    match st.run.getLast? with
    | some (.MoveTo _) =>
      match flush_command_buffer st.run st.cursor with
      | none => none
      | some (ws, cursor1) => some ⟨[c], [], cursor1, st.out ++ ws⟩
    | _ =>
      match st.run with
      | [] => some ⟨[c], [], st.cursor, st.out⟩
      | _ => some ⟨st.run ++ st.pendC ++ [c], [], st.cursor, st.out⟩
  | .ClosePath =>
    some ⟨st.run, st.pendC ++ [c], st.cursor, st.out ++ [encode_command c 0]⟩

def encGeoLoop : EncState → List Command → Option EncState
  | st, [] => some st
  | st, c :: cs =>
    match encGeoStep st c with
    | none => none
    | some st1 => encGeoLoop st1 cs

/-- `encode_geometry` from `write.rs` lines 219–287: run the loop from an
empty buffer with the cursor at the origin, then flush the remaining
buffer. -/
def encode_geometry (commands : List Command) : Option (List Nat) :=
  match encGeoLoop ⟨[], [], (0, 0), []⟩ commands with
  | none => none
  | some st =>
    match flush_command_buffer st.run st.cursor with
    | none => none
    | some (ws, _) => some (st.out ++ ws)

/-! ### `write.rs`: geometry validation and `Geometry::encode` -/

inductive GeomType where
  | UNKNOWN
  | POINT
  | LINESTRING
  | POLYGON
deriving DecidableEq

structure EncodedGeometry where
  gtype : GeomType
  commands : List Nat
deriving DecidableEq

inductive Geometry where
  | Point (c : TileCoord)
  | MultiPoint (cs : List TileCoord)
  | Line (cs : List TileCoord)
  | MultiLine (ls : List (List TileCoord))
  | Polygon (exterior : List TileCoord) (interiors : List (List TileCoord))

/-- The command sequence a line contributes: `MoveTo` for index 0,
`LineTo` for the rest (`write.rs` lines 317–323). -/
def lineCommands : List TileCoord → List Command
  | [] => []
  | p :: ps => .MoveTo p :: ps.map .LineTo

/-- `encode_line` from `write.rs` lines 310–326 (the commands it appends). -/
def encode_line (line : List TileCoord) : Except InvalidGeometry (List Command) :=
  if line.isEmpty then .error .EmptyLineGeometry
  else if line.length < 2 then .error .InvalidLineGeometry
  else .ok (lineCommands line)

/-- First accumulation loop of the shoelace area in `encode_ring`
(`area += ring[i].0 * ring[i + 1].1`), in source order, with checked
arithmetic. -/
def areaAddPairs (acc : Int) : List (TileCoord × TileCoord) → Option Int
  | [] => some acc
  | (a, b) :: rest =>
    match mulI32 a.1 b.2 with
    | none => none
    | some m =>
      match addI32 acc m with
      | none => none
      | some s => areaAddPairs s rest

/-- Second accumulation loop (`area -= ring[i + 1].0 * ring[i].1`). -/
def areaSubPairs (acc : Int) : List (TileCoord × TileCoord) → Option Int
  | [] => some acc
  | (a, b) :: rest =>
    match mulI32 b.1 a.2 with
    | none => none
    | some m =>
      match subI32 acc m with
      | none => none
      | some s => areaSubPairs s rest

/-- The staged signed-area computation of `encode_ring`
(`write.rs` lines 339–351): add all forward products, add the wrap-around
forward product, subtract all backward products, subtract the wrap-around
backward product — each step with checked i32 arithmetic. -/
def ring_area (ring : List TileCoord) : Option Int :=
  match areaAddPairs 0 (ring.zip ring.tail) with
  | none => none
  | some a1 =>
    match mulI32 (ring.getLastD (0, 0)).1 (ring.headD (0, 0)).2 with
    | none => none
    | some m1 =>
      match addI32 a1 m1 with
      | none => none
      | some a2 =>
        match areaSubPairs a2 (ring.zip ring.tail) with
        | none => none
        | some a3 =>
          match mulI32 (ring.headD (0, 0)).1 (ring.getLastD (0, 0)).2 with
          | none => none
          | some m2 => subI32 a3 m2

/-- The command sequence a ring contributes: `MoveTo`, `LineTo`s, then a
`ClosePath` (`write.rs` lines 359–367). -/
def ringCommands : List TileCoord → List Command
  | [] => []
  | p :: ps => .MoveTo p :: (ps.map .LineTo ++ [.ClosePath])

/-- `encode_ring` from `write.rs` lines 328–370: length checks, zero-area
check, and on success the signed area together with the appended
commands.  The outer `Option` models the overflow panic of the area
computation. -/
def encode_ring (ring : List TileCoord) :
    Option (Except InvalidGeometry (Int × List Command)) :=
  if ring.isEmpty then some (.error .EmptyPolygonGeometry)
  else if ring.length < 3 then some (.error .InvalidPolygonGeometry)
  else
    match ring_area ring with
    | none => none
    | some area =>
      if area = 0 then some (.error .InvalidPolygonGeometry)
      else some (.ok (area, ringCommands ring))

/-- The `for line in lines` loop of the `MultiLine` arm: concatenate each
line's commands, aborting on the first invalid line. -/
def encodeLinesCommands : List (List TileCoord) → Except InvalidGeometry (List Command)
  | [] => .ok []
  | l :: ls =>
    match encode_line l with
    | .error e => .error e
    | .ok cs =>
      match encodeLinesCommands ls with
      | .error e => .error e
      | .ok rest => .ok (cs ++ rest)

/-- The `for line in interior_rings` loop of the `Polygon` arm: encode each
interior ring, rejecting a positive-area interior, concatenating the
commands. -/
def encodeRingsCommands : List (List TileCoord) →
    Option (Except InvalidGeometry (List Command))
  | [] => some (.ok [])
  | r :: rs =>
    match encode_ring r with
    | none => none
    | some (.error e) => some (.error e)
    | some (.ok (area, cs)) =>
      if 0 < area then some (.error .InvalidPolygonGeometry)
      else
        match encodeRingsCommands rs with
        | none => none
        | some (.error e) => some (.error e)
        | some (.ok rest) => some (.ok (cs ++ rest))

/-- `Geometry::encode` from `write.rs` lines 372–462.  The outer `Option`
models arithmetic-overflow panics (checked i32 model); the `Except` carries
the five `InvalidGeometry` rejections. -/
def Geometry.encode : Geometry → Option (Except InvalidGeometry EncodedGeometry)
  | .Point p =>
    match encode_geometry [Command.MoveTo p] with
    | none => none
    | some ws => some (.ok ⟨.POINT, ws⟩)
  | .MultiPoint ps =>
    if ps.isEmpty then some (.error .EmptyPointGeometry)
    else
      match encode_geometry (ps.map Command.MoveTo) with
      | none => none
      | some ws => some (.ok ⟨.POINT, ws⟩)
  | .Line l =>
    if l.isEmpty then some (.error .EmptyLineGeometry)
    else
      match encode_line l with
      | .error e => some (.error e)
      | .ok cs =>
        match encode_geometry cs with
        | none => none
        | some ws => some (.ok ⟨.LINESTRING, ws⟩)
  | .MultiLine ls =>
    if ls.isEmpty then some (.error .EmptyLineGeometry)
    else
      match encodeLinesCommands ls with
      | .error e => some (.error e)
      | .ok cs =>
        match encode_geometry cs with
        | none => none
        | some ws => some (.ok ⟨.LINESTRING, ws⟩)
  | .Polygon exterior interiors =>
    if exterior.isEmpty then some (.error .EmptyPolygonGeometry)
    else
      match encode_ring exterior with
      | none => none
      | some (.error e) => some (.error e)
      | some (.ok (area, extCs)) =>
        if area < 0 then some (.error .InvalidPolygonGeometry)
        else
          match encodeRingsCommands interiors with
          | none => none
          | some (.error e) => some (.error e)
          | some (.ok intCs) =>
            match encode_geometry (extCs ++ intCs) with
            | none => none
            | some ws => some (.ok ⟨.POLYGON, ws⟩)

/-! ### `write.rs`: features, attribute interning, layers -/

/-- `Feature` from `write.rs` lines 157–178, in its input form (before
`encoded_tags` is filled in by the layer's interner). -/
structure Feature where
  id : Option Nat
  tags : List (String × Value)
  geometry : EncodedGeometry
deriving DecidableEq

/-- The wire-ready `pbf_tile::Feature` produced by `Layer::encode_features`. -/
structure PbfFeature where
  id : Nat
  tags : List Nat
  type_pb : GeomType
  geometry : List Nat
deriving DecidableEq

/-- Key-index lookup table.  The source's `HashMap<&String, u32>` is
populated only by `insert(key, keys.len())` right after pushing `key`,
so it always maps each interned key to its index in `keys`; it is
modelled as the association list of `(key, index)` pairs in insertion
order, queried with first-match lookup. -/
def lookupKey : List (String × Nat) → String → Option Nat
  | [], _ => none
  | (k0, i0) :: rest, k => if k0 == k then some i0 else lookupKey rest k

/-- `key_lookup.get(key)` / `keys.push` / `key_lookup.insert` of
`write.rs` lines 86–98: return the key's index, interning it if new. -/
def internKey (keys : List String) (lookup : List (String × Nat)) (k : String) :
    Nat × List String × List (String × Nat) :=
  match lookupKey lookup k with
  | some i => (i, keys, lookup)
  | none => (keys.length, keys ++ [k], lookup ++ [(k, keys.length)])

/-- `values.iter().position(|v| v == value)` / `values.push` of
`write.rs` lines 104–113: linear scan by the derived `Value` equality. -/
def internValue (values : List Value) (v : Value) : Nat × List Value :=
  match values.findIdx? (fun w => valueEq w v) with
  | some i => (i, values)
  | none => (values.length, values ++ [v])

/-- The `for (key, value) in &feature.tags` loop of
`Layer::encode_features_tags` (`write.rs` lines 85–114): intern the key,
push its index, abort with `IdenticalAttributeKeys(keys.last())` if the
index was already used by this feature, then intern the value and push its
index. -/
def internTagsAux (keys : List String) (lookup : List (String × Nat))
    (values : List Value) (seen : List Nat) (enc : List Nat) :
    List (String × Value) →
    Except SpecViolation (List String × List (String × Nat) × List Value × List Nat)
  | [] => .ok (keys, lookup, values, enc)
  | (k, v) :: rest =>
    match internKey keys lookup k with
    | (ki, keys1, lookup1) =>
      if seen.contains ki then
        .error (.IdenticalAttributeKeys (keys1.getLastD ""))
      else
        match internValue values v with
        | (vi, values1) =>
          internTagsAux keys1 lookup1 values1 (seen ++ [ki]) (enc ++ [ki] ++ [vi]) rest

/-- `Layer::encode_features_tags` (`write.rs` lines 76–119): process the
features in order, threading the key/value tables, and return the tables
together with each feature's encoded tag-index list. -/
def encodeFeaturesTagsAux (keys : List String) (lookup : List (String × Nat))
    (values : List Value) :
    List Feature → Except SpecViolation (List String × List Value × List (List Nat))
  | [] => .ok (keys, values, [])
  | f :: fs =>
    match internTagsAux keys lookup values [] [] f.tags with
    | .error e => .error e
    | .ok (keys1, lookup1, values1, enc) =>
      match encodeFeaturesTagsAux keys1 lookup1 values1 fs with
      | .error e => .error e
      | .ok (ks, vs, encs) => .ok (ks, vs, enc :: encs)

def encode_features_tags (fs : List Feature) :
    Except SpecViolation (List String × List Value × List (List Nat)) :=
  encodeFeaturesTagsAux [] [] [] fs

/-- The wire feature built by `Layer::encode_features`:
`id: feature.id.unwrap_or(0)` plus the interned tags and the encoded
geometry. -/
def assembleFeature (f : Feature) (enc : List Nat) : PbfFeature :=
  ⟨f.id.getD 0, enc, f.geometry.gtype, f.geometry.commands⟩

/-- `Layer::encode_features` (`write.rs` lines 121–141): check id
uniqueness among id-bearing features with a seen-set, assembling the wire
features in order. -/
def encodeFeaturesAux (seen : List Nat) :
    List (Feature × List Nat) → Except SpecViolation (List PbfFeature)
  | [] => .ok []
  | (f, enc) :: rest =>
    match f.id with
    | some i =>
      if seen.contains i then .error (.IdenticalFeatureIds i)
      else
        match encodeFeaturesAux (seen ++ [i]) rest with
        | .error e => .error e
        | .ok r => .ok (assembleFeature f enc :: r)
    | none =>
      match encodeFeaturesAux seen rest with
      | .error e => .error e
      | .ok r => .ok (assembleFeature f enc :: r)

structure Layer where
  name : String
  features : List PbfFeature
  keys : List String
  values : List Value
  extent : Nat
deriving DecidableEq

/-- `Layer::new` (`write.rs` lines 64–74): reject an empty feature list,
intern the tags, encode the features, attach extent 4096. -/
def Layer.new (name : String) (features : List Feature) :
    Except SpecViolation Layer :=
  if features.isEmpty then .error .EmptyLayer
  else
    match encode_features_tags features with
    | .error e => .error e
    | .ok (keys, values, encs) =>
      match encodeFeaturesAux [] (features.zip encs) with
      | .error e => .error e
      | .ok pbf => .ok ⟨name, pbf, keys, values, 4096⟩

/-! ### Specification-side definitions

These definitions follow the wording of the specification and of the
claims (mathematical shoelace area, zigzag inversion, command-stream
decoding, first-seen deduplication); they are compared against the
embedded source functions by the theorems below. -/

/-- Mathematical shoelace signed area of a ring, implicitly closed from
the last vertex back to the first: `Σ (xᵢ·yᵢ₊₁ − xᵢ₊₁·yᵢ)` cyclically. -/
def shoelace (ring : List TileCoord) : Int :=
  ((ring.zip ring.tail).map (fun ab => ab.1.1 * ab.2.2 - ab.2.1 * ab.1.2)).sum
    + ((ring.getLastD (0, 0)).1 * (ring.headD (0, 0)).2
        - (ring.headD (0, 0)).1 * (ring.getLastD (0, 0)).2)

/-- Inverse of the zigzag map `(n << 1) ^ (n >> 31)`: even words are
non-negative halves, odd words are negative. -/
def unzigzag (w : Nat) : Int :=
  if w % 2 = 0 then ((w / 2 : Nat) : Int) else -((w / 2 : Nat) : Int) - 1

/-- Read `count` coordinate pairs of zigzagged delta parameter words,
accumulating the cursor; returns the decoded absolute points, the
remaining words and the final cursor. -/
def readParams : Nat → List Nat → TileCoord → List TileCoord × List Nat × TileCoord
  | 0, ws, cur => ([], ws, cur)
  | k + 1, wx :: wy :: ws, cur =>
    match readParams k ws (cur.1 + unzigzag wx, cur.2 + unzigzag wy) with
    | (pts, rest, fin) => ((cur.1 + unzigzag wx, cur.2 + unzigzag wy) :: pts, rest, fin)
  | _ + 1, [w], cur => ([], [w], cur)
  | _ + 1, [], cur => ([], [], cur)

/-- Decode a command-word stream per the MVT command-integer format
(`id = w & 7`, `count = w >> 3`), collecting the absolute coordinates of
all `MoveTo`/`LineTo` parameters in order; `ClosePath` words carry no
parameters.  This is the decoding procedure described by the claims. -/
def decodeLoop (ws : List Nat) (cur : TileCoord) : List TileCoord :=
  match ws with
  | [] => []
  | w :: rest =>
    if w % 8 = 7 then decodeLoop rest cur
    else
      (readParams (w / 8) rest cur).1 ++
        decodeLoop (readParams (w / 8) rest cur).2.1 (readParams (w / 8) rest cur).2.2
termination_by ws.length
decreasing_by
  · simp only [List.length_cons]; omega
  · have h : ∀ (k : Nat) (ws : List Nat) (cur : TileCoord),
        (readParams k ws cur).2.1.length ≤ ws.length := by
      intro k
      induction k with
      | zero => intro ws cur; simp [readParams]
      | succ k ih =>
        intro ws cur
        cases ws with
        | nil => simp [readParams]
        | cons wx rest =>
          cases rest with
          | nil => simp [readParams]
          | cons wy ws2 =>
            have hh := ih ws2 (cur.1 + unzigzag wx, cur.2 + unzigzag wy)
            simp only [readParams, List.length_cons]
            exact le_trans hh (by omega)
    have hh := h (w / 8) rest cur
    simp only [List.length_cons]
    omega

def decode_coords (ws : List Nat) : List TileCoord := decodeLoop ws (0, 0)

/-- The zigzagged delta parameter words of a point sequence walked from a
cursor. -/
def deltaParams : TileCoord → List TileCoord → List Nat
  | _, [] => []
  | c, p :: ps => encode_param (p.1 - c.1) :: encode_param (p.2 - c.2) :: deltaParams p ps

/-- Where the cursor ends after walking a point sequence. -/
def lastD (cur : TileCoord) (ps : List TileCoord) : TileCoord := ps.getLastD cur

/-- Every delta along a cursor walk fits in i32. -/
def deltasOK : TileCoord → List TileCoord → Prop
  | _, [] => True
  | c, p :: ps => inI32 (p.1 - c.1) ∧ inI32 (p.2 - c.2) ∧ deltasOK p ps

def deltasOKDec : (c : TileCoord) → (ps : List TileCoord) → Decidable (deltasOK c ps)
  | _, [] => .isTrue trivial
  | c, p :: ps =>
    have : Decidable (deltasOK p ps) := deltasOKDec p ps
    inferInstanceAs (Decidable (_ ∧ _ ∧ _))

instance (c : TileCoord) (ps : List TileCoord) : Decidable (deltasOK c ps) :=
  deltasOKDec c ps

/-- The absolute coordinate sequence of a geometry specification, in
input order (the cursor's path). -/
def coordsOf : Geometry → List TileCoord
  | .Point c => [c]
  | .MultiPoint ps => ps
  | .Line l => l
  | .MultiLine ls => ls.flatten
  | .Polygon e is => e ++ is.flatten

/-- The rings of a geometry (exterior first), empty for non-polygons. -/
def ringsOf : Geometry → List (List TileCoord)
  | .Polygon e is => e :: is
  | _ => []

/-- Minimum-length requirements of the claims: `MultiPoint` non-empty,
every line with at least two points (and a non-empty line list), every
polygon ring with at least three points. -/
def geomWF : Geometry → Prop
  | .Point _ => True
  | .MultiPoint ps => ps ≠ []
  | .Line l => 2 ≤ l.length
  | .MultiLine ls => ls ≠ [] ∧ ∀ l ∈ ls, 2 ≤ l.length
  | .Polygon e is => 3 ≤ e.length ∧ ∀ r ∈ is, 3 ≤ r.length

instance : (g : Geometry) → Decidable (geomWF g)
  | .Point _ => .isTrue trivial
  | .MultiPoint _ => by unfold geomWF; infer_instance
  | .Line _ => by unfold geomWF; infer_instance
  | .MultiLine _ => by unfold geomWF; infer_instance
  | .Polygon _ _ => by unfold geomWF; infer_instance

/-- Every point-list length stays below `2^29`, so that run counts
survive the `count << 3` truncation of the command word. -/
def sizesOK : Geometry → Prop
  | .Point _ => True
  | .MultiPoint ps => ps.length < 536870912
  | .Line l => l.length < 536870912
  | .MultiLine ls => ∀ l ∈ ls, l.length < 536870912
  | .Polygon e is => e.length < 536870912 ∧ ∀ r ∈ is, r.length < 536870912

instance : (g : Geometry) → Decidable (sizesOK g)
  | .Point _ => .isTrue trivial
  | .MultiPoint _ => by unfold sizesOK; infer_instance
  | .Line _ => by unfold sizesOK; infer_instance
  | .MultiLine _ => by unfold sizesOK; infer_instance
  | .Polygon _ _ => by unfold sizesOK; infer_instance

/-- The ring-orientation requirements: positive exterior shoelace area,
negative interior shoelace areas (trivial for non-polygons). -/
def signsOK : Geometry → Prop
  | .Polygon e is => 0 < shoelace e ∧ ∀ r ∈ is, shoelace r < 0
  | _ => True

instance : (g : Geometry) → Decidable (signsOK g)
  | .Point _ => .isTrue trivial
  | .MultiPoint _ => .isTrue trivial
  | .Line _ => .isTrue trivial
  | .MultiLine _ => .isTrue trivial
  | .Polygon _ _ => by unfold signsOK; infer_instance

/-- The staged i32 shoelace evaluation of every ring stays in range
(no overflow panic; trivial for non-polygons). -/
def areasDef (g : Geometry) : Prop := ∀ r ∈ ringsOf g, (ring_area r).isSome = true

instance (g : Geometry) : Decidable (areasDef g) := by
  unfold areasDef; infer_instance

/-- First-seen-order deduplication with respect to an equality test `eq`
(earlier element as `eq`'s first argument, matching the source's table
scan `table_entry == new_value`). -/
def dedupBy (eq : α → α → Bool) : List α → List α
  | [] => []
  | x :: xs => x :: dedupBy eq (xs.filter (fun y => !(eq x y)))
termination_by l => l.length
decreasing_by
  have := List.length_filter_le (fun y => !(eq x y)) xs
  simp only [List.length_cons]
  omega

/-- Insert-if-absent at the end of a table, membership tested by `eq`
with the table entry as `eq`'s first argument (the source's scan order
`table_entry == new_value`). -/
def insBy (eq : α → α → Bool) (t : List α) (v : α) : List α :=
  if t.any (fun x => eq x v) then t else t ++ [v]

/-- All tag keys of a feature list, in processing order. -/
def allKeys (fs : List Feature) : List String := fs.flatMap (fun f => f.tags.map Prod.fst)

/-- All tag values of a feature list, in processing order. -/
def allValues (fs : List Feature) : List Value := fs.flatMap (fun f => f.tags.map Prod.snd)

/-- A feature's tags rewritten to interned index pairs: the index of the
key in the final key table and the index of the value in the final value
table (lookup by the code's `Value` equality). -/
def specEncTags (keys : List String) (values : List Value)
    (tags : List (String × Value)) : List Nat :=
  tags.flatMap (fun kv =>
    [keys.findIdx (fun k => k == kv.1), values.findIdx (fun w => valueEq w kv.2)])

/-- No tag value is a float/double NaN: every payload is self-equal under
the code's `Value` equality. -/
def noNaN (fs : List Feature) : Prop :=
  ∀ f ∈ fs, ∀ kv ∈ f.tags, valueEq kv.2 kv.2 = true

instance (fs : List Feature) : Decidable (noNaN fs) := by
  unfold noNaN; infer_instance

/-- The id of the first feature (in input order) whose declared id equals
the declared id of an earlier feature; id-less features are skipped. -/
def firstDupIdAux (seen : List Nat) : List Feature → Option Nat
  | [] => none
  | f :: fs =>
    match f.id with
    | some i => if seen.contains i then some i else firstDupIdAux (seen ++ [i]) fs
    | none => firstDupIdAux seen fs

def firstDupId (fs : List Feature) : Option Nat := firstDupIdAux [] fs

/-! ### Closed forms for the emitted command streams

These describe, per geometry shape, exactly which words the embedded
`encode_geometry` emits; the characterization theorems below prove the
correspondence. -/

/-- The words contributed by flushing a pending `LineTo` run over the
points `qs` from cursor `cur`: one LineTo command word carrying the run
length, then the zigzagged delta parameters. -/
def flushLOut (cur : TileCoord) : List TileCoord → List Nat
  | [] => []
  | q :: qs =>
    encode_command (.LineTo (0, 0)) ((q :: qs).length % 4294967296) ::
      deltaParams cur (q :: qs)

/-- The stream of a (multi)point geometry: one MoveTo command word whose
count is the number of points, then all delta parameters. -/
def mpStream (ps : List TileCoord) : List Nat :=
  encode_command (.MoveTo (0, 0)) (ps.length % 4294967296) :: deltaParams (0, 0) ps

/-- The stream chunk of one line walked from `cur`: a MoveTo word of
count 1 with the first point's delta, then the LineTo run. -/
def lineStream (cur : TileCoord) : List TileCoord → List Nat
  | [] => []
  | p :: qs =>
    encode_command (.MoveTo (0, 0)) 1 :: (deltaParams cur [p] ++ flushLOut p qs)

def lineStreams : TileCoord → List (List TileCoord) → List Nat
  | _, [] => []
  | cur, l :: ls => lineStream cur l ++ lineStreams (lastD cur l) ls

/-- The stream chunk of one polygon ring walked from `cur`: the MoveTo
word and first delta, then — as the embedded encoder actually emits it —
the bare ClosePath word `7`, and only after it the ring's LineTo run. -/
def ringStream (cur : TileCoord) : List TileCoord → List Nat
  | [] => []
  | p :: qs =>
    encode_command (.MoveTo (0, 0)) 1 ::
      (deltaParams cur [p] ++ (encode_command .ClosePath 0 :: flushLOut p qs))

def ringStreams : TileCoord → List (List TileCoord) → List Nat
  | _, [] => []
  | cur, r :: rs => ringStream cur r ++ ringStreams (lastD cur r) rs

/-! ### Arithmetic and command-word lemmas -/

theorem zigzag_roundtrip (d : Int) (h : inI32 d) : unzigzag (encode_param d) = d := by
  obtain ⟨h1, h2⟩ := h
  unfold i32min at h1
  unfold i32max at h2
  unfold encode_param toU32 unzigzag
  by_cases hd : d < 0
  · rw [if_pos hd]
    have hv : (-(2 * d) - 1) % 4294967296 = -(2 * d) - 1 :=
      Int.emod_eq_of_lt (by omega) (by omega)
    rw [hv]
    split_ifs <;> omega
  · rw [if_neg hd]
    have hv : (2 * d) % 4294967296 = 2 * d := Int.emod_eq_of_lt (by omega) (by omega)
    rw [hv]
    split_ifs <;> omega

theorem lor_mul8_add (idv k : Nat) (h : idv < 8) : idv ||| (8 * k) = 8 * k + idv := by
  have h8 : (8 : Nat) * k = 2 ^ 3 * k := by ring
  have hlt : idv < 2 ^ 3 := by simpa using h
  apply Nat.eq_of_testBit_eq
  intro i
  have ha : Nat.testBit (8 * k + idv) i =
      if i < 3 then idv.testBit i else k.testBit (i - 3) := by
    rw [h8]; exact Nat.testBit_mul_pow_two_add k hlt i
  have hb : Nat.testBit (8 * k) i =
      if i < 3 then false else k.testBit (i - 3) := by
    rw [h8]
    have h0 := Nat.testBit_mul_pow_two_add k (show (0 : Nat) < 2 ^ 3 by norm_num) i
    simpa using h0
  rw [Nat.testBit_lor, ha, hb]
  by_cases hi : i < 3
  · rw [if_pos hi, if_pos hi]
    exact Bool.or_false _
  · rw [if_neg hi, if_neg hi]
    have hz : idv.testBit i = false :=
      Nat.testBit_eq_false_of_lt (lt_of_lt_of_le h (by
        calc (8 : Nat) = 2 ^ 3 := by norm_num
          _ ≤ 2 ^ i := Nat.pow_le_pow_right (by norm_num) (Nat.not_lt.mp hi)))
    rw [hz, Bool.false_or]

theorem encode_command_moveto (p : TileCoord) (k : Nat) (hk : k < 536870912) :
    encode_command (.MoveTo p) k = 8 * k + 1 := by
  show (1 &&& 7) ||| ((k <<< 3) % 4294967296) = 8 * k + 1
  have hs : k <<< 3 = 8 * k := by rw [Nat.shiftLeft_eq]; ring
  have hm : (8 * k) % 4294967296 = 8 * k := Nat.mod_eq_of_lt (by omega)
  have h17 : (1 : Nat) &&& 7 = 1 := by decide
  rw [hs, hm, h17]
  exact lor_mul8_add 1 k (by norm_num)

theorem encode_command_lineto (p : TileCoord) (k : Nat) (hk : k < 536870912) :
    encode_command (.LineTo p) k = 8 * k + 2 := by
  show (2 &&& 7) ||| ((k <<< 3) % 4294967296) = 8 * k + 2
  have hs : k <<< 3 = 8 * k := by rw [Nat.shiftLeft_eq]; ring
  have hm : (8 * k) % 4294967296 = 8 * k := Nat.mod_eq_of_lt (by omega)
  have h27 : (2 : Nat) &&& 7 = 2 := by decide
  rw [hs, hm, h27]
  exact lor_mul8_add 2 k (by norm_num)

theorem encode_command_close (k : Nat) : encode_command .ClosePath k = 7 := rfl

theorem encode_command_moveto_any (p : TileCoord) (k : Nat) :
    encode_command (.MoveTo p) k = encode_command (.MoveTo (0, 0)) k := rfl

theorem encode_command_lineto_any (p : TileCoord) (k : Nat) :
    encode_command (.LineTo p) k = encode_command (.LineTo (0, 0)) k := rfl

/-! ### Cursor-walk lemmas -/

theorem lastD_nil (c : TileCoord) : lastD c [] = c := rfl

theorem lastD_cons (c p : TileCoord) (ps : List TileCoord) :
    lastD c (p :: ps) = lastD p ps := List.getLastD_cons c p ps

theorem lastD_append (c : TileCoord) (xs ys : List TileCoord) :
    lastD c (xs ++ ys) = lastD (lastD c xs) ys := by
  induction xs generalizing c with
  | nil => simp [lastD]
  | cons x xs ih => simp only [List.cons_append, lastD_cons, ih]

theorem deltasOK_append (c : TileCoord) (xs ys : List TileCoord) :
    deltasOK c (xs ++ ys) ↔ deltasOK c xs ∧ deltasOK (lastD c xs) ys := by
  induction xs generalizing c with
  | nil => simp [deltasOK, lastD]
  | cons x xs ih =>
    simp only [List.cons_append, deltasOK, lastD_cons, List.append_eq, ih x, and_assoc]

/-! ### Flush lemmas -/

theorem move_cursor_eq (c p : TileCoord) (h1 : inI32 (p.1 - c.1))
    (h2 : inI32 (p.2 - c.2)) :
    move_cursor c p = some ((p.1 - c.1, p.2 - c.2), p) := by
  simp [move_cursor, diff_to, subI32, chk, h1, h2]

theorem flushParams_moveTo (ps : List TileCoord) (cur : TileCoord)
    (h : deltasOK cur ps) :
    flushParams (ps.map Command.MoveTo) cur = some (deltaParams cur ps, lastD cur ps) := by
  induction ps generalizing cur with
  | nil => simp [flushParams, deltaParams, lastD]
  | cons p ps ih =>
    simp only [deltasOK] at h
    obtain ⟨h1, h2, h3⟩ := h
    simp only [List.map_cons, flushParams, move_cursor_eq cur p h1 h2, ih p h3,
      deltaParams, lastD_cons]

theorem flushParams_lineTo (ps : List TileCoord) (cur : TileCoord)
    (h : deltasOK cur ps) :
    flushParams (ps.map Command.LineTo) cur = some (deltaParams cur ps, lastD cur ps) := by
  induction ps generalizing cur with
  | nil => simp [flushParams, deltaParams, lastD]
  | cons p ps ih =>
    simp only [deltasOK] at h
    obtain ⟨h1, h2, h3⟩ := h
    simp only [List.map_cons, flushParams, move_cursor_eq cur p h1 h2, ih p h3,
      deltaParams, lastD_cons]

theorem flush_nil (cur : TileCoord) : flush_command_buffer [] cur = some ([], cur) := rfl

theorem flush_moveTo (p : TileCoord) (ps : List TileCoord) (cur : TileCoord)
    (h : deltasOK cur (p :: ps)) :
    flush_command_buffer ((p :: ps).map Command.MoveTo) cur =
      some (encode_command (.MoveTo (0, 0)) ((p :: ps).length % 4294967296) ::
              deltaParams cur (p :: ps),
            lastD cur (p :: ps)) := by
  have hf := flushParams_moveTo (p :: ps) cur h
  simp only [List.map_cons, flush_command_buffer] at *
  simp only [hf, List.length_cons, List.length_map, encode_command_moveto_any]

theorem flush_lineTo (q : TileCoord) (qs : List TileCoord) (cur : TileCoord)
    (h : deltasOK cur (q :: qs)) :
    flush_command_buffer ((q :: qs).map Command.LineTo) cur =
      some (flushLOut cur (q :: qs), lastD cur (q :: qs)) := by
  have hf := flushParams_lineTo (q :: qs) cur h
  simp only [List.map_cons, flush_command_buffer, flushLOut] at *
  simp only [hf, List.length_cons, List.length_map, encode_command_lineto_any]

/-! ### Loop lemmas -/

theorem encGeoLoop_append (cs1 cs2 : List Command) (st : EncState) :
    encGeoLoop st (cs1 ++ cs2) =
      match encGeoLoop st cs1 with
      | none => none
      | some st1 => encGeoLoop st1 cs2 := by
  induction cs1 generalizing st with
  | nil => simp [encGeoLoop]
  | cons c cs ih =>
    simp only [List.cons_append, encGeoLoop]
    cases encGeoStep st c with
    | none => rfl
    | some st1 => exact ih st1

theorem encGeoStep_M_fresh (pc : List Command) (cur : TileCoord) (out : List Nat)
    (p : TileCoord) :
    encGeoStep ⟨[], pc, cur, out⟩ (.MoveTo p) = some ⟨[.MoveTo p], [], cur, out⟩ := rfl

theorem getLast?_map_M (a : TileCoord) (as : List TileCoord) :
    ∃ q, ((a :: as).map Command.MoveTo).getLast? = some (Command.MoveTo q) := by
  refine ⟨(a :: as).getLast (by simp), ?_⟩
  rw [List.getLast?_map, List.getLast?_eq_getLast _ (by simp)]
  rfl

theorem getLast?_map_L (a : TileCoord) (as : List TileCoord) :
    ∃ q, ((a :: as).map Command.LineTo).getLast? = some (Command.LineTo q) := by
  refine ⟨(a :: as).getLast (by simp), ?_⟩
  rw [List.getLast?_map, List.getLast?_eq_getLast _ (by simp)]
  rfl

theorem encGeoStep_M_extend (a : TileCoord) (as : List TileCoord) (pc : List Command)
    (cur : TileCoord) (out : List Nat) (p : TileCoord) :
    encGeoStep ⟨(a :: as).map Command.MoveTo, pc, cur, out⟩ (.MoveTo p) =
      some ⟨(a :: as).map Command.MoveTo ++ pc ++ [.MoveTo p], [], cur, out⟩ := by
  obtain ⟨q, hq⟩ := getLast?_map_M a as
  simp only [List.map_cons] at hq ⊢
  simp only [encGeoStep, hq, List.cons_append, List.append_assoc]

theorem encGeoStep_L_extend (a : TileCoord) (as : List TileCoord) (pc : List Command)
    (cur : TileCoord) (out : List Nat) (p : TileCoord) :
    encGeoStep ⟨(a :: as).map Command.LineTo, pc, cur, out⟩ (.LineTo p) =
      some ⟨(a :: as).map Command.LineTo ++ pc ++ [.LineTo p], [], cur, out⟩ := by
  obtain ⟨q, hq⟩ := getLast?_map_L a as
  simp only [List.map_cons] at hq ⊢
  simp only [encGeoStep, hq, List.cons_append, List.append_assoc]

theorem encGeoLoop_allM (ps : List TileCoord) : ∀ (run : List TileCoord)
    (cur : TileCoord) (out : List Nat),
    encGeoLoop ⟨run.map Command.MoveTo, [], cur, out⟩ (ps.map Command.MoveTo) =
      some ⟨(run ++ ps).map Command.MoveTo, [], cur, out⟩ := by
  induction ps with
  | nil => intro run cur out; simp [encGeoLoop]
  | cons p ps ih =>
    intro run cur out
    cases run with
    | nil =>
      simp only [List.map_cons, List.map_nil, encGeoLoop, encGeoStep_M_fresh]
      have h := ih [p] cur out
      simpa using h
    | cons a as =>
      simp only [List.map_cons] at *
      rw [show (Command.MoveTo p :: ps.map Command.MoveTo) =
            ([Command.MoveTo p] ++ ps.map Command.MoveTo) from rfl,
        encGeoLoop_append]
      have hstep := encGeoStep_M_extend a as [] cur out p
      simp only [List.map_cons] at hstep
      simp only [encGeoLoop, hstep, List.append_nil]
      have h := ih ((a :: as) ++ [p]) cur out
      simp only [List.map_append, List.map_cons, List.map_nil, List.append_assoc,
        List.cons_append, List.nil_append] at *
      rw [h]

theorem encGeoLoop_allL (ps : List TileCoord) : ∀ (a : TileCoord) (as : List TileCoord)
    (cur : TileCoord) (out : List Nat),
    encGeoLoop ⟨(a :: as).map Command.LineTo, [], cur, out⟩ (ps.map Command.LineTo) =
      some ⟨((a :: as) ++ ps).map Command.LineTo, [], cur, out⟩ := by
  induction ps with
  | nil => intro a as cur out; simp [encGeoLoop]
  | cons p ps ih =>
    intro a as cur out
    simp only [List.map_cons]
    rw [show (Command.LineTo p :: ps.map Command.LineTo) =
          ([Command.LineTo p] ++ ps.map Command.LineTo) from rfl,
      encGeoLoop_append]
    have hstep := encGeoStep_L_extend a as [] cur out p
    simp only [List.map_cons] at hstep
    simp only [encGeoLoop, hstep, List.append_nil]
    have h := ih a (as ++ [p]) cur out
    simp only [List.map_append, List.map_cons, List.map_nil, List.append_assoc,
      List.cons_append, List.nil_append] at *
    rw [h]

theorem encGeoStep_C (run pc : List Command) (cur : TileCoord) (out : List Nat) :
    encGeoStep ⟨run, pc, cur, out⟩ .ClosePath =
      some ⟨run, pc ++ [.ClosePath], cur, out ++ [encode_command .ClosePath 0]⟩ := rfl

theorem encGeoStep_M_on_L (a : TileCoord) (as : List TileCoord) (pc : List Command)
    (cur : TileCoord) (out : List Nat) (p : TileCoord)
    (h : deltasOK cur (a :: as)) :
    encGeoStep ⟨(a :: as).map Command.LineTo, pc, cur, out⟩ (.MoveTo p) =
      some ⟨[.MoveTo p], [], lastD cur (a :: as), out ++ flushLOut cur (a :: as)⟩ := by
  obtain ⟨qq, hq⟩ := getLast?_map_L a as
  have hfl := flush_lineTo a as cur h
  simp only [List.map_cons] at hq hfl ⊢
  simp only [encGeoStep, hq, hfl]

theorem encGeoStep_L_on_M1 (p : TileCoord) (pc : List Command) (cur : TileCoord)
    (out : List Nat) (q : TileCoord)
    (h1 : inI32 (p.1 - cur.1)) (h2 : inI32 (p.2 - cur.2)) :
    encGeoStep ⟨[.MoveTo p], pc, cur, out⟩ (.LineTo q) =
      some ⟨[.LineTo q], [], p,
        out ++ (encode_command (.MoveTo (0, 0)) 1 :: deltaParams cur [p])⟩ := by
  have hd : deltasOK cur [p] := ⟨h1, h2, trivial⟩
  have hfl := flush_moveTo p [] cur hd
  have h1m : (1 : Nat) % 4294967296 = 1 := by norm_num
  simp only [List.map_cons, List.map_nil, List.length_cons, List.length_nil, h1m,
    lastD_cons, lastD_nil] at hfl
  simp only [encGeoStep, List.getLast?_singleton, hfl]

/-- Processing one line's commands from a pending-LineTo-run state:
the pending run is flushed, then the line's MoveTo is flushed by its first
LineTo, leaving the line's own LineTo run pending. -/
theorem encGeoLoop_line (p q : TileCoord) (qs pend : List TileCoord)
    (pc : List Command) (cur : TileCoord) (out : List Nat)
    (hpend : deltasOK cur pend)
    (hp1 : inI32 (p.1 - (lastD cur pend).1)) (hp2 : inI32 (p.2 - (lastD cur pend).2))
    (hq : deltasOK p (q :: qs)) :
    encGeoLoop ⟨pend.map Command.LineTo, pc, cur, out⟩ (lineCommands (p :: q :: qs)) =
      some ⟨(q :: qs).map Command.LineTo, [], p,
        out ++ flushLOut cur pend ++
          (encode_command (.MoveTo (0, 0)) 1 :: deltaParams (lastD cur pend) [p])⟩ := by
  have hsplit : lineCommands (p :: q :: qs) =
      [Command.MoveTo p] ++ ([Command.LineTo q] ++ qs.map Command.LineTo) := by
    simp [lineCommands]
  rw [hsplit, encGeoLoop_append]
  have hstep1 : encGeoLoop ⟨pend.map Command.LineTo, pc, cur, out⟩ [Command.MoveTo p] =
      some ⟨[.MoveTo p], [], lastD cur pend, out ++ flushLOut cur pend⟩ := by
    cases pend with
    | nil =>
      simp only [List.map_nil, encGeoLoop, encGeoStep_M_fresh, lastD_nil, flushLOut,
        List.append_nil]
    | cons a as =>
      simp only [encGeoLoop, encGeoStep_M_on_L a as pc cur out p hpend]
  simp only [hstep1]
  rw [encGeoLoop_append]
  have hstep2 := encGeoStep_L_on_M1 p [] (lastD cur pend) (out ++ flushLOut cur pend) q
    hp1 hp2
  simp only [encGeoLoop, hstep2]
  have h3 := encGeoLoop_allL qs q [] p
    (out ++ flushLOut cur pend ++ (encode_command (.MoveTo (0, 0)) 1 ::
      deltaParams (lastD cur pend) [p]))
  simp only [List.map_cons, List.map_nil, List.cons_append, List.nil_append,
    List.append_assoc] at h3 ⊢
  rw [h3]

/-- Processing one ring's commands from a pending-LineTo-run state: like a
line, but the trailing ClosePath immediately appends the bare word `7` and
parks itself in `pendC` while the ring's LineTo run stays pending. -/
theorem encGeoLoop_ring (p q : TileCoord) (qs pend : List TileCoord)
    (pc : List Command) (cur : TileCoord) (out : List Nat)
    (hpend : deltasOK cur pend)
    (hp1 : inI32 (p.1 - (lastD cur pend).1)) (hp2 : inI32 (p.2 - (lastD cur pend).2))
    (hq : deltasOK p (q :: qs)) :
    encGeoLoop ⟨pend.map Command.LineTo, pc, cur, out⟩ (ringCommands (p :: q :: qs)) =
      some ⟨(q :: qs).map Command.LineTo, [.ClosePath], p,
        out ++ flushLOut cur pend ++
          (encode_command (.MoveTo (0, 0)) 1 :: deltaParams (lastD cur pend) [p]) ++
          [encode_command .ClosePath 0]⟩ := by
  have hsplit : ringCommands (p :: q :: qs) =
      lineCommands (p :: q :: qs) ++ [Command.ClosePath] := by
    simp [ringCommands, lineCommands]
  rw [hsplit, encGeoLoop_append]
  simp only [encGeoLoop_line p q qs pend pc cur out hpend hp1 hp2 hq]
  simp only [encGeoLoop, encGeoStep_C, List.nil_append, List.append_assoc]

theorem exists_two {α : Type} (l : List α) (h : 2 ≤ l.length) :
    ∃ p q qs, l = p :: q :: qs := by
  cases l with
  | nil => simp at h
  | cons p t =>
    cases t with
    | nil => simp at h
    | cons q qs => exact ⟨p, q, qs, rfl⟩

/-- Loop-plus-final-flush over a list of lines, from a pending LineTo run:
the output is the pending run's flush followed by the lines' stream
chunks. -/
theorem encGeoLines (ls : List (List TileCoord)) : ∀ (pend : List TileCoord)
    (pc : List Command) (cur : TileCoord) (out : List Nat),
    (∀ l ∈ ls, 2 ≤ l.length) → deltasOK cur pend →
    deltasOK (lastD cur pend) ls.flatten →
    (match encGeoLoop ⟨pend.map Command.LineTo, pc, cur, out⟩
        (ls.flatMap lineCommands) with
     | none => none
     | some st =>
       match flush_command_buffer st.run st.cursor with
       | none => none
       | some (ws, _) => some (st.out ++ ws)) =
      some (out ++ (flushLOut cur pend ++ lineStreams (lastD cur pend) ls)) := by
  induction ls with
  | nil =>
    intro pend pc cur out h2 hpend hflat
    cases pend with
    | nil => simp [encGeoLoop, flush_nil, flushLOut, lineStreams]
    | cons a as =>
      simp only [List.flatMap_nil, encGeoLoop, List.map_cons]
      have hfl := flush_lineTo a as cur hpend
      simp only [List.map_cons] at hfl
      simp only [hfl, lineStreams, List.append_nil]
  | cons l ls ih =>
    intro pend pc cur out h2 hpend hflat
    obtain ⟨p, q, qs, rfl⟩ := exists_two l (h2 l (by simp))
    rw [List.flatMap_cons, encGeoLoop_append]
    rw [List.flatten_cons] at hflat
    rw [deltasOK_append] at hflat
    obtain ⟨hl, hrest⟩ := hflat
    have hl' := hl
    simp only [deltasOK] at hl'
    obtain ⟨hp1, hp2, hq⟩ := hl'
    simp only [encGeoLoop_line p q qs pend pc cur out hpend hp1 hp2 hq]
    have hih := ih (q :: qs) [] p
      (out ++ flushLOut cur pend ++
        (encode_command (.MoveTo (0, 0)) 1 :: deltaParams (lastD cur pend) [p]))
      (fun l hm => h2 l (by simp [hm])) hq
      (by
        have : lastD (lastD cur pend) (p :: q :: qs) = lastD p (q :: qs) := by
          rw [lastD_cons]
        rw [← this]; exact hrest)
    rw [hih]
    simp only [lineStreams, lineStream, flushLOut, lastD_cons, deltaParams,
      List.append_assoc, List.cons_append, List.nil_append]

/-- Loop-plus-final-flush over a list of rings, from a pending LineTo
run. -/
theorem encGeoRings (rs : List (List TileCoord)) : ∀ (pend : List TileCoord)
    (pc : List Command) (cur : TileCoord) (out : List Nat),
    (∀ r ∈ rs, 2 ≤ r.length) → deltasOK cur pend →
    deltasOK (lastD cur pend) rs.flatten →
    (match encGeoLoop ⟨pend.map Command.LineTo, pc, cur, out⟩
        (rs.flatMap ringCommands) with
     | none => none
     | some st =>
       match flush_command_buffer st.run st.cursor with
       | none => none
       | some (ws, _) => some (st.out ++ ws)) =
      some (out ++ (flushLOut cur pend ++ ringStreams (lastD cur pend) rs)) := by
  induction rs with
  | nil =>
    intro pend pc cur out h2 hpend hflat
    cases pend with
    | nil => simp [encGeoLoop, flush_nil, flushLOut, ringStreams]
    | cons a as =>
      simp only [List.flatMap_nil, encGeoLoop, List.map_cons]
      have hfl := flush_lineTo a as cur hpend
      simp only [List.map_cons] at hfl
      simp only [hfl, ringStreams, List.append_nil]
  | cons r rs ih =>
    intro pend pc cur out h2 hpend hflat
    obtain ⟨p, q, qs, rfl⟩ := exists_two r (h2 r (by simp))
    rw [List.flatMap_cons, encGeoLoop_append]
    rw [List.flatten_cons] at hflat
    rw [deltasOK_append] at hflat
    obtain ⟨hl, hrest⟩ := hflat
    have hl' := hl
    simp only [deltasOK] at hl'
    obtain ⟨hp1, hp2, hq⟩ := hl'
    simp only [encGeoLoop_ring p q qs pend pc cur out hpend hp1 hp2 hq]
    have hih := ih (q :: qs) [.ClosePath] p
      (out ++ flushLOut cur pend ++
        (encode_command (.MoveTo (0, 0)) 1 :: deltaParams (lastD cur pend) [p]) ++
        [encode_command .ClosePath 0])
      (fun l hm => h2 l (by simp [hm])) hq
      (by
        have : lastD (lastD cur pend) (p :: q :: qs) = lastD p (q :: qs) := by
          rw [lastD_cons]
        rw [← this]; exact hrest)
    rw [hih]
    simp only [ringStreams, ringStream, flushLOut, lastD_cons, deltaParams,
      List.append_assoc, List.cons_append, List.nil_append]

/-- The full stream emitted for a non-empty MoveTo-only command list. -/
theorem encode_geometry_points (p : TileCoord) (ps : List TileCoord)
    (h : deltasOK (0, 0) (p :: ps)) :
    encode_geometry ((p :: ps).map Command.MoveTo) = some (mpStream (p :: ps)) := by
  have hl := encGeoLoop_allM (p :: ps) [] (0, 0) []
  simp only [List.map_nil, List.nil_append] at hl
  have hfl := flush_moveTo p ps (0, 0) h
  unfold encode_geometry
  simp only [hl, hfl, mpStream, encode_command_moveto_any, List.nil_append]

/-- The full stream emitted for a list of (≥ 2)-point lines. -/
theorem encode_geometry_lines (ls : List (List TileCoord))
    (h2 : ∀ l ∈ ls, 2 ≤ l.length) (hflat : deltasOK (0, 0) ls.flatten) :
    encode_geometry (ls.flatMap lineCommands) = some (lineStreams (0, 0) ls) := by
  have h := encGeoLines ls [] [] (0, 0) [] h2 trivial (by simpa [lastD] using hflat)
  simp only [List.map_nil, flushLOut, lastD_nil, List.nil_append] at h
  unfold encode_geometry
  exact h

/-- The full stream emitted for a list of (≥ 2)-point rings. -/
theorem encode_geometry_rings (rs : List (List TileCoord))
    (h2 : ∀ r ∈ rs, 2 ≤ r.length) (hflat : deltasOK (0, 0) rs.flatten) :
    encode_geometry (rs.flatMap ringCommands) = some (ringStreams (0, 0) rs) := by
  have h := encGeoRings rs [] [] (0, 0) [] h2 trivial (by simpa [lastD] using hflat)
  simp only [List.map_nil, flushLOut, lastD_nil, List.nil_append] at h
  unfold encode_geometry
  exact h

/-! ### Decoding lemmas -/

theorem readParams_deltaParams (ps : List TileCoord) : ∀ (rest : List Nat)
    (cur : TileCoord), deltasOK cur ps →
    readParams ps.length (deltaParams cur ps ++ rest) cur = (ps, rest, lastD cur ps) := by
  induction ps with
  | nil => intro rest cur _; simp [readParams, deltaParams, lastD]
  | cons p ps ih =>
    intro rest cur h
    simp only [deltasOK] at h
    obtain ⟨h1, h2, h3⟩ := h
    simp only [deltaParams, List.length_cons, List.cons_append, readParams,
      List.append_eq]
    have hx : cur.1 + unzigzag (encode_param (p.1 - cur.1)) = p.1 := by
      rw [zigzag_roundtrip _ h1]; ring
    have hy : cur.2 + unzigzag (encode_param (p.2 - cur.2)) = p.2 := by
      rw [zigzag_roundtrip _ h2]; ring
    rw [hx, hy]
    have hp : ((p.1, p.2) : TileCoord) = p := rfl
    rw [hp, ih rest p h3]
    simp [lastD_cons]

theorem decodeLoop_nil (cur : TileCoord) : decodeLoop [] cur = [] := by
  rw [decodeLoop]

theorem decodeLoop_word_ml (idv k : Nat) (hid : idv = 1 ∨ idv = 2)
    (hk : k < 536870912) (ps : List TileCoord) (hlen : ps.length = k)
    (rest : List Nat) (cur : TileCoord) (h : deltasOK cur ps) :
    decodeLoop ((8 * k + idv) :: (deltaParams cur ps ++ rest)) cur =
      ps ++ decodeLoop rest (lastD cur ps) := by
  conv_lhs => rw [decodeLoop]
  have hmod : ¬ ((8 * k + idv) % 8 = 7) := by omega
  rw [if_neg hmod]
  have hdiv : (8 * k + idv) / 8 = k := by omega
  rw [hdiv, ← hlen, readParams_deltaParams ps rest cur h]

theorem decodeLoop_close_word (rest : List Nat) (cur : TileCoord) :
    decodeLoop (encode_command .ClosePath 0 :: rest) cur = decodeLoop rest cur := by
  rw [encode_command_close]
  conv_lhs => rw [decodeLoop]
  norm_num

theorem decode_mpStream (p : TileCoord) (ps : List TileCoord)
    (h : deltasOK (0, 0) (p :: ps)) (hlen : (p :: ps).length < 536870912) :
    decode_coords (mpStream (p :: ps)) = p :: ps := by
  unfold decode_coords mpStream
  rw [Nat.mod_eq_of_lt (lt_trans hlen (by norm_num))]
  rw [encode_command_moveto _ _ hlen]
  have hd := decodeLoop_word_ml 1 (p :: ps).length (Or.inl rfl) hlen (p :: ps) rfl
    [] (0, 0) h
  simp only [List.append_nil] at hd
  rw [hd, decodeLoop_nil, List.append_nil]

theorem decode_lineStreams (ls : List (List TileCoord)) : ∀ (cur : TileCoord)
    (rest : List Nat),
    (∀ l ∈ ls, 2 ≤ l.length ∧ l.length < 536870912) →
    deltasOK cur ls.flatten →
    decodeLoop (lineStreams cur ls ++ rest) cur =
      ls.flatten ++ decodeLoop rest (lastD cur ls.flatten) := by
  induction ls with
  | nil => intro cur rest _ _; simp [lineStreams, lastD]
  | cons l ls ih =>
    intro cur rest h hd
    obtain ⟨p, q, qs, rfl⟩ := exists_two l (h l (by simp)).1
    have hlt : (q :: qs).length < 536870912 := by
      have := (h (p :: q :: qs) (by simp)).2
      simp only [List.length_cons] at this ⊢
      omega
    rw [List.flatten_cons] at hd ⊢
    rw [deltasOK_append] at hd
    obtain ⟨hl, hrest⟩ := hd
    have hl' := hl
    simp only [deltasOK] at hl'
    obtain ⟨hp1, hp2, hq⟩ := hl'
    have hdp : deltasOK cur [p] := ⟨hp1, hp2, trivial⟩
    simp only [lastD_cons] at hrest
    simp only [lineStreams, lineStream, flushLOut, deltaParams, lastD_cons,
      List.append_assoc, List.cons_append, List.nil_append]
    rw [show encode_command (Command.MoveTo (0, 0)) 1 = 8 * 1 + 1 from
      encode_command_moveto _ 1 (by norm_num)]
    have hw1 := decodeLoop_word_ml 1 1 (Or.inl rfl) (by norm_num) [p] rfl
      (encode_command (Command.LineTo (0, 0)) ((q :: qs).length % 4294967296) ::
        (deltaParams p (q :: qs) ++ (lineStreams (lastD q qs) ls ++ rest)))
      cur hdp
    simp only [deltaParams, lastD_cons, lastD_nil, List.cons_append,
      List.nil_append, List.append_assoc] at hw1
    rw [hw1]
    rw [Nat.mod_eq_of_lt (lt_trans hlt (by norm_num))]
    rw [show encode_command (Command.LineTo (0, 0)) (q :: qs).length =
      8 * (q :: qs).length + 2 from encode_command_lineto _ _ hlt]
    have hw2 := decodeLoop_word_ml 2 (q :: qs).length (Or.inr rfl) hlt (q :: qs) rfl
      (lineStreams (lastD q qs) ls ++ rest) p hq
    simp only [deltaParams, lastD_cons, lastD_nil, List.cons_append,
      List.nil_append, List.append_assoc] at hw2
    rw [hw2]
    rw [ih (lastD q qs) rest (fun l hm => h l (by simp [hm])) hrest]
    simp [lastD_append, lastD_cons, List.append_assoc]

theorem decode_ringStreams (rs : List (List TileCoord)) : ∀ (cur : TileCoord)
    (rest : List Nat),
    (∀ r ∈ rs, 2 ≤ r.length ∧ r.length < 536870912) →
    deltasOK cur rs.flatten →
    decodeLoop (ringStreams cur rs ++ rest) cur =
      rs.flatten ++ decodeLoop rest (lastD cur rs.flatten) := by
  induction rs with
  | nil => intro cur rest _ _; simp [ringStreams, lastD]
  | cons r rs ih =>
    intro cur rest h hd
    obtain ⟨p, q, qs, rfl⟩ := exists_two r (h r (by simp)).1
    have hlt : (q :: qs).length < 536870912 := by
      have := (h (p :: q :: qs) (by simp)).2
      simp only [List.length_cons] at this ⊢
      omega
    rw [List.flatten_cons] at hd ⊢
    rw [deltasOK_append] at hd
    obtain ⟨hl, hrest⟩ := hd
    have hl' := hl
    simp only [deltasOK] at hl'
    obtain ⟨hp1, hp2, hq⟩ := hl'
    have hdp : deltasOK cur [p] := ⟨hp1, hp2, trivial⟩
    simp only [lastD_cons] at hrest
    simp only [ringStreams, ringStream, flushLOut, deltaParams, lastD_cons,
      List.append_assoc, List.cons_append, List.nil_append]
    rw [show encode_command (Command.MoveTo (0, 0)) 1 = 8 * 1 + 1 from
      encode_command_moveto _ 1 (by norm_num)]
    have hw1 := decodeLoop_word_ml 1 1 (Or.inl rfl) (by norm_num) [p] rfl
      (encode_command Command.ClosePath 0 ::
        (encode_command (Command.LineTo (0, 0)) ((q :: qs).length % 4294967296) ::
          (deltaParams p (q :: qs) ++ (ringStreams (lastD q qs) rs ++ rest))))
      cur hdp
    simp only [deltaParams, lastD_cons, lastD_nil, List.cons_append,
      List.nil_append, List.append_assoc] at hw1
    rw [hw1]
    rw [decodeLoop_close_word]
    rw [Nat.mod_eq_of_lt (lt_trans hlt (by norm_num))]
    rw [show encode_command (Command.LineTo (0, 0)) (q :: qs).length =
      8 * (q :: qs).length + 2 from encode_command_lineto _ _ hlt]
    have hw2 := decodeLoop_word_ml 2 (q :: qs).length (Or.inr rfl) hlt (q :: qs) rfl
      (ringStreams (lastD q qs) rs ++ rest) p hq
    simp only [deltaParams, lastD_cons, lastD_nil, List.cons_append,
      List.nil_append, List.append_assoc] at hw2
    rw [hw2]
    rw [ih (lastD q qs) rest (fun l hm => h l (by simp [hm])) hrest]
    simp [lastD_append, lastD_cons, List.append_assoc]

/-! ### Validation lemmas -/

theorem encode_line_ok (l : List TileCoord) (h : 2 ≤ l.length) :
    encode_line l = .ok (lineCommands l) := by
  have h1 : l.isEmpty = false := by
    cases l with
    | nil => simp at h
    | cons a t => simp
  have h2 : ¬ (l.length < 2) := by omega
  simp [encode_line, h1, h2]

theorem encode_line_ok_inv (l : List TileCoord) (cs : List Command)
    (h : encode_line l = .ok cs) : 2 ≤ l.length ∧ cs = lineCommands l := by
  unfold encode_line at h
  split_ifs at h with h1 h2
  have hcs : lineCommands l = cs := by simpa using h
  exact ⟨by omega, hcs.symm⟩

theorem encodeLinesCommands_ok (ls : List (List TileCoord))
    (h : ∀ l ∈ ls, 2 ≤ l.length) :
    encodeLinesCommands ls = .ok (ls.flatMap lineCommands) := by
  induction ls with
  | nil => simp [encodeLinesCommands]
  | cons l ls ih =>
    simp [encodeLinesCommands, encode_line_ok l (h l (by simp)),
      ih (fun l hm => h l (by simp [hm])), List.flatMap_cons]

theorem encodeLinesCommands_ok_inv (ls : List (List TileCoord)) (cs : List Command)
    (h : encodeLinesCommands ls = .ok cs) :
    (∀ l ∈ ls, 2 ≤ l.length) ∧ cs = ls.flatMap lineCommands := by
  induction ls generalizing cs with
  | nil =>
    simp only [encodeLinesCommands] at h
    refine ⟨by simp, ?_⟩
    simpa using h.symm
  | cons l ls ih =>
    simp only [encodeLinesCommands] at h
    cases hline : encode_line l with
    | error e => rw [hline] at h; simp at h
    | ok c =>
      rw [hline] at h
      cases hrest : encodeLinesCommands ls with
      | error e => rw [hrest] at h; simp at h
      | ok cs2 =>
        rw [hrest] at h
        obtain ⟨h2l, hc⟩ := encode_line_ok_inv l c hline
        obtain ⟨h2s, hcs2⟩ := ih cs2 hrest
        refine ⟨?_, ?_⟩
        · intro l' hm
          rcases List.mem_cons.mp hm with rfl | hm2
          · exact h2l
          · exact h2s l' hm2
        · have : cs = c ++ cs2 := by simpa using h.symm
          rw [this, hc, hcs2, List.flatMap_cons]

theorem mulI32_some {x y m : Int} (h : mulI32 x y = some m) : m = x * y := by
  unfold mulI32 chk at h
  split_ifs at h
  simpa using h.symm

theorem addI32_some {x y m : Int} (h : addI32 x y = some m) : m = x + y := by
  unfold addI32 chk at h
  split_ifs at h
  simpa using h.symm

theorem subI32_some {x y m : Int} (h : subI32 x y = some m) : m = x - y := by
  unfold subI32 chk at h
  split_ifs at h
  simpa using h.symm

theorem sum_map_sub {α : Type} (l : List α) (f g : α → Int) :
    (l.map (fun x => f x - g x)).sum = (l.map f).sum - (l.map g).sum := by
  induction l with
  | nil => simp
  | cons x l ih => simp [ih]; ring

theorem areaAddPairs_eq (ps : List (TileCoord × TileCoord)) : ∀ (acc x : Int),
    areaAddPairs acc ps = some x →
    x = acc + (ps.map (fun ab => ab.1.1 * ab.2.2)).sum := by
  induction ps with
  | nil =>
    intro acc x h
    simp only [areaAddPairs] at h
    have := Option.some.inj h
    simp [← this]
  | cons ab ps ih =>
    intro acc x h
    obtain ⟨a, b⟩ := ab
    by_cases h1 : inI32 (a.1 * b.2)
    · simp only [areaAddPairs, mulI32, chk, if_pos h1] at h
      by_cases h2 : inI32 (acc + a.1 * b.2)
      · simp only [addI32, chk, if_pos h2] at h
        rw [ih _ _ h]
        simp [List.sum_cons]
        ring
      · simp only [addI32, chk, if_neg h2] at h
        simp at h
    · simp only [areaAddPairs, mulI32, chk, if_neg h1] at h
      simp at h

theorem areaSubPairs_eq (ps : List (TileCoord × TileCoord)) : ∀ (acc x : Int),
    areaSubPairs acc ps = some x →
    x = acc - (ps.map (fun ab => ab.2.1 * ab.1.2)).sum := by
  induction ps with
  | nil =>
    intro acc x h
    simp only [areaSubPairs] at h
    have := Option.some.inj h
    simp [← this]
  | cons ab ps ih =>
    intro acc x h
    obtain ⟨a, b⟩ := ab
    by_cases h1 : inI32 (b.1 * a.2)
    · simp only [areaSubPairs, mulI32, chk, if_pos h1] at h
      by_cases h2 : inI32 (acc - b.1 * a.2)
      · simp only [subI32, chk, if_pos h2] at h
        rw [ih _ _ h]
        simp [List.sum_cons]
        ring
      · simp only [subI32, chk, if_neg h2] at h
        simp at h
    · simp only [areaSubPairs, mulI32, chk, if_neg h1] at h
      simp at h

/-- The staged checked shoelace computation, when it does not overflow,
computes exactly the mathematical shoelace signed area. -/
theorem ring_area_eq (r : List TileCoord) (a : Int) (h : ring_area r = some a) :
    a = shoelace r := by
  unfold ring_area at h
  cases h1 : areaAddPairs 0 (r.zip r.tail) with
  | none => rw [h1] at h; simp at h
  | some a1 =>
    simp only [h1] at h
    cases h2 : mulI32 (r.getLastD (0, 0)).1 (r.headD (0, 0)).2 with
    | none => rw [h2] at h; simp at h
    | some m1 =>
      simp only [h2] at h
      cases h3 : addI32 a1 m1 with
      | none => rw [h3] at h; simp at h
      | some a2 =>
        simp only [h3] at h
        cases h4 : areaSubPairs a2 (r.zip r.tail) with
        | none => rw [h4] at h; simp at h
        | some a3 =>
          simp only [h4] at h
          cases h5 : mulI32 (r.headD (0, 0)).1 (r.getLastD (0, 0)).2 with
          | none => rw [h5] at h; simp at h
          | some m2 =>
            simp only [h5] at h
            have e1 := areaAddPairs_eq _ _ _ h1
            have e2 := mulI32_some h2
            have e3 := addI32_some h3
            have e4 := areaSubPairs_eq _ _ _ h4
            have e5 := mulI32_some h5
            have e6 := subI32_some h
            rw [shoelace, sum_map_sub]
            rw [e6, e4, e3, e1, e2, e5]
            ring

theorem encode_ring_ok (r : List TileCoord) (h3 : 3 ≤ r.length)
    (ha : (ring_area r).isSome = true) (hz : shoelace r ≠ 0) :
    encode_ring r = some (.ok (shoelace r, ringCommands r)) := by
  obtain ⟨a, haa⟩ := Option.isSome_iff_exists.mp ha
  have he := ring_area_eq r a haa
  rw [he] at haa
  have h1 : r.isEmpty = false := by
    cases r with
    | nil => simp at h3
    | cons x t => simp
  have h2 : ¬ (r.length < 3) := by omega
  simp [encode_ring, h1, h2, haa, hz]

theorem encode_ring_zero (r : List TileCoord) (h3 : 3 ≤ r.length)
    (ha : (ring_area r).isSome = true) (hz : shoelace r = 0) :
    encode_ring r = some (.error .InvalidPolygonGeometry) := by
  obtain ⟨a, haa⟩ := Option.isSome_iff_exists.mp ha
  have he := ring_area_eq r a haa
  rw [he, hz] at haa
  have h1 : r.isEmpty = false := by
    cases r with
    | nil => simp at h3
    | cons x t => simp
  have h2 : ¬ (r.length < 3) := by omega
  simp [encode_ring, h1, h2, haa]

theorem encode_ring_isSome (r : List TileCoord)
    (ha : (ring_area r).isSome = true) : ∃ res, encode_ring r = some res := by
  unfold encode_ring
  split_ifs with h1 h2
  · exact ⟨_, rfl⟩
  · exact ⟨_, rfl⟩
  · obtain ⟨a, haa⟩ := Option.isSome_iff_exists.mp ha
    rw [haa]
    by_cases hz : a = 0
    · refine ⟨.error .InvalidPolygonGeometry, ?_⟩
      simp [hz]
    · refine ⟨.ok (a, ringCommands r), ?_⟩
      simp [hz]

theorem encode_ring_ok_inv (r : List TileCoord) (a : Int) (cs : List Command)
    (h : encode_ring r = some (.ok (a, cs))) :
    3 ≤ r.length ∧ cs = ringCommands r := by
  unfold encode_ring at h
  split_ifs at h with h1 h2
  · simp at h
  · simp at h
  · cases haa : ring_area r with
    | none => rw [haa] at h; simp at h
    | some a1 =>
      simp only [haa] at h
      by_cases hz : a1 = 0
      · simp [hz] at h
      · simp only [if_neg hz] at h
        simp only [Option.some.injEq, Except.ok.injEq, Prod.mk.injEq] at h
        exact ⟨by omega, h.2.symm⟩

theorem encodeRings_ok (rs : List (List TileCoord))
    (h : ∀ r ∈ rs, 3 ≤ r.length ∧ (ring_area r).isSome = true ∧ shoelace r < 0) :
    encodeRingsCommands rs = some (.ok (rs.flatMap ringCommands)) := by
  induction rs with
  | nil => simp [encodeRingsCommands]
  | cons r rs ih =>
    obtain ⟨h3, ha, hneg⟩ := h r (by simp)
    have hok := encode_ring_ok r h3 ha (by omega)
    simp [encodeRingsCommands, hok, not_lt.mpr (le_of_lt hneg),
      ih (fun r hm => h r (by simp [hm])), List.flatMap_cons]

theorem encodeRings_ok_inv (rs : List (List TileCoord)) (cs : List Command)
    (h : encodeRingsCommands rs = some (.ok cs)) :
    (∀ r ∈ rs, 2 ≤ r.length) ∧ cs = rs.flatMap ringCommands := by
  induction rs generalizing cs with
  | nil =>
    simp only [encodeRingsCommands] at h
    refine ⟨by simp, ?_⟩
    simpa using h.symm
  | cons r rs ih =>
    simp only [encodeRingsCommands] at h
    cases hring : encode_ring r with
    | none => rw [hring] at h; simp at h
    | some res =>
      simp only [hring] at h
      cases res with
      | error e => simp at h
      | ok ac =>
        obtain ⟨a, c⟩ := ac
        by_cases hpos : 0 < a
        · simp [hpos] at h
        · simp only [if_neg hpos] at h
          cases hrest : encodeRingsCommands rs with
          | none => rw [hrest] at h; simp at h
          | some res2 =>
            simp only [hrest] at h
            cases res2 with
            | error e => simp at h
            | ok cs2 =>
              obtain ⟨hlen, hc⟩ := encode_ring_ok_inv r a c hring
              obtain ⟨hall, hcs2⟩ := ih cs2 hrest
              refine ⟨?_, ?_⟩
              · intro r' hm
                rcases List.mem_cons.mp hm with rfl | hm2
                · omega
                · exact hall r' hm2
              · have hcc : cs = c ++ cs2 := by simpa using h.symm
                rw [hcc, hc, hcs2, List.flatMap_cons]

theorem encodeRings_isSome (rs : List (List TileCoord))
    (h : ∀ r ∈ rs, (ring_area r).isSome = true) :
    ∃ res, encodeRingsCommands rs = some res := by
  induction rs with
  | nil => exact ⟨_, rfl⟩
  | cons r rs ih =>
    obtain ⟨res, hres⟩ := encode_ring_isSome r (h r (by simp))
    obtain ⟨res2, hres2⟩ := ih (fun r hm => h r (by simp [hm]))
    cases res with
    | error e => exact ⟨.error e, by simp [encodeRingsCommands, hres]⟩
    | ok ac =>
      obtain ⟨a, c⟩ := ac
      by_cases hpos : 0 < a
      · exact ⟨.error .InvalidPolygonGeometry,
          by simp [encodeRingsCommands, hres, hpos]⟩
      · cases res2 with
        | error e => exact ⟨.error e,
            by simp [encodeRingsCommands, hres, hpos, hres2]⟩
        | ok cs2 => exact ⟨.ok (c ++ cs2),
            by simp [encodeRingsCommands, hres, hpos, hres2]⟩

theorem encodeRings_err_append (front rest : List (List TileCoord))
    (hf : ∀ r ∈ front, 3 ≤ r.length ∧ (ring_area r).isSome = true ∧ shoelace r < 0)
    (e : InvalidGeometry) (hrest : encodeRingsCommands rest = some (.error e)) :
    encodeRingsCommands (front ++ rest) = some (.error e) := by
  induction front with
  | nil => simpa using hrest
  | cons r rs ih =>
    obtain ⟨h3, ha, hneg⟩ := hf r (by simp)
    have hok := encode_ring_ok r h3 ha (by omega)
    simp [encodeRingsCommands, hok, not_lt.mpr (le_of_lt hneg),
      ih (fun r hm => hf r (by simp [hm]))]

theorem encodeRings_head_bad (r : List TileCoord) (rest : List (List TileCoord))
    (h3 : 3 ≤ r.length) (ha : (ring_area r).isSome = true)
    (hsign : 0 ≤ shoelace r) :
    encodeRingsCommands (r :: rest) = some (.error .InvalidPolygonGeometry) := by
  rcases eq_or_lt_of_le hsign with hz | hpos
  · simp [encodeRingsCommands, encode_ring_zero r h3 ha hz.symm]
  · simp [encodeRingsCommands, encode_ring_ok r h3 ha (by omega), hpos]

/-! ### Amended claim theorems for the geometry encoder -/

/-- C3 (amended).  For every geometry spec that meets the minimum lengths
(`MultiPoint` non-empty, each line ≥ 2 points and a non-empty line list,
each polygon ring ≥ 3 points), whose list lengths stay below `2^29`, whose
rings have non-zero shoelace area with the required sign pattern and
overflow-free staged i32 area evaluation, and whose cursor deltas all fit
in i32, `encode` returns `Ok` and decoding the emitted command stream
(inverse zigzag, delta accumulation from `(0,0)`) reconstructs exactly the
original absolute coordinate sequence in order. -/
theorem c3_roundtrip_amended (g : Geometry) (hwf : geomWF g) (hsz : sizesOK g)
    (hsg : signsOK g) (har : areasDef g) (hdl : deltasOK (0, 0) (coordsOf g)) :
    ∃ eg, Geometry.encode g = some (.ok eg) ∧
      decode_coords eg.commands = coordsOf g := by
  cases g with
  | Point p =>
    have hdl' : deltasOK (0, 0) [p] := hdl
    refine ⟨⟨.POINT, mpStream [p]⟩, ?_, ?_⟩
    · have he := encode_geometry_points p [] hdl'
      simp only [List.map_cons, List.map_nil] at he
      simp only [Geometry.encode, he]
    · have hd := decode_mpStream p [] hdl' (by norm_num)
      simpa [coordsOf] using hd
  | MultiPoint ps =>
    have hne : ps ≠ [] := hwf
    cases ps with
    | nil => exact absurd rfl hne
    | cons p ps' =>
      have hdl' : deltasOK (0, 0) (p :: ps') := hdl
      refine ⟨⟨.POINT, mpStream (p :: ps')⟩, ?_, ?_⟩
      · have he := encode_geometry_points p ps' hdl'
        simp only [Geometry.encode, List.isEmpty_cons, Bool.false_eq_true,
          if_false, he]
      · have hlen : (p :: ps').length < 536870912 := hsz
        have hd := decode_mpStream p ps' hdl' hlen
        simpa [coordsOf] using hd
  | Line l =>
    have hwf' : 2 ≤ l.length := hwf
    have he := encode_line_ok l hwf'
    have hl : l.isEmpty = false := by
      cases l with
      | nil => simp at hwf'
      | cons a t => simp
    have hstream := encode_geometry_lines [l]
      (by intro l' hm; simp only [List.mem_singleton] at hm; subst hm; exact hwf')
      (by simpa using hdl)
    simp only [List.flatMap_cons, List.flatMap_nil, List.append_nil] at hstream
    refine ⟨⟨.LINESTRING, lineStreams (0, 0) [l]⟩, ?_, ?_⟩
    · simp only [Geometry.encode, hl, Bool.false_eq_true, if_false, he, hstream]
    · have hdec := decode_lineStreams [l] (0, 0) []
        (by intro l' hm; simp only [List.mem_singleton] at hm; subst hm
            exact ⟨hwf', hsz⟩)
        (by simpa using hdl)
      unfold decode_coords
      simp only [List.append_nil] at hdec
      rw [hdec, decodeLoop_nil, List.append_nil]
      simp [coordsOf]
  | MultiLine ls =>
    obtain ⟨hne, hlen⟩ := hwf
    have he := encodeLinesCommands_ok ls hlen
    have hl : ls.isEmpty = false := by
      cases ls with
      | nil => exact absurd rfl hne
      | cons a t => simp
    have hstream := encode_geometry_lines ls hlen hdl
    refine ⟨⟨.LINESTRING, lineStreams (0, 0) ls⟩, ?_, ?_⟩
    · simp only [Geometry.encode, hl, Bool.false_eq_true, if_false, he, hstream]
    · have hdec := decode_lineStreams ls (0, 0) []
        (fun l hm => ⟨hlen l hm, hsz l hm⟩) hdl
      unfold decode_coords
      simp only [List.append_nil] at hdec
      rw [hdec, decodeLoop_nil, List.append_nil]
      rfl
  | Polygon e is =>
    obtain ⟨he3, hi3⟩ := hwf
    obtain ⟨hsgE, hsgI⟩ := hsg
    obtain ⟨hszE, hszI⟩ := hsz
    have harE : (ring_area e).isSome = true := har e (by simp [ringsOf])
    have harI : ∀ r ∈ is, (ring_area r).isSome = true := fun r hm =>
      har r (by simp [ringsOf, hm])
    have hcne : e.isEmpty = false := by
      cases e with
      | nil => simp at he3
      | cons a t => simp
    have hre := encode_ring_ok e he3 harE (by omega)
    have hneg : ¬ (shoelace e < 0) := not_lt.mpr (le_of_lt hsgE)
    have hrs := encodeRings_ok is (fun r hm => ⟨hi3 r hm, harI r hm, hsgI r hm⟩)
    have hflat : deltasOK (0, 0) ((e :: is).flatten) := by
      simpa [coordsOf, List.flatten_cons] using hdl
    have hstream := encode_geometry_rings (e :: is)
      (by
        intro r hm
        rcases List.mem_cons.mp hm with rfl | hm2
        · omega
        · have := hi3 r hm2; omega)
      hflat
    simp only [List.flatMap_cons] at hstream
    refine ⟨⟨.POLYGON, ringStreams (0, 0) (e :: is)⟩, ?_, ?_⟩
    · simp only [Geometry.encode, hcne, Bool.false_eq_true, if_false, hre,
        hneg, if_false, hrs, hstream]
    · have hdec := decode_ringStreams (e :: is) (0, 0) []
        (by
          intro r hm
          rcases List.mem_cons.mp hm with rfl | hm2
          · exact ⟨by omega, hszE⟩
          · exact ⟨by have := hi3 r hm2; omega, hszI r hm2⟩)
        hflat
      unfold decode_coords
      simp only [List.append_nil] at hdec
      rw [hdec, decodeLoop_nil, List.append_nil]
      simp [coordsOf, List.flatten_cons]

/-- C3 witness: a polygon with one hole round-trips. -/
theorem c3_roundtrip_amended_witness :
    ∃ eg, Geometry.encode
        (.Polygon [(0, 0), (4, 0), (0, 4)] [[(1, 1), (1, 2), (2, 1)]]) =
          some (.ok eg) ∧
      decode_coords eg.commands =
        coordsOf (.Polygon [(0, 0), (4, 0), (0, 4)] [[(1, 1), (1, 2), (2, 1)]]) :=
  c3_roundtrip_amended (.Polygon [(0, 0), (4, 0), (0, 4)] [[(1, 1), (1, 2), (2, 1)]])
    (by decide) (by decide) (by decide) (by decide) (by decide)

/-- C4 (amended).  For a polygon whose rings are examined in code order
with overflow-free staged i32 shoelace evaluation: a (≥ 3)-point exterior
ring with zero signed area is rejected with `InvalidPolygonGeometry`; a
negative-area exterior is rejected with `InvalidPolygonGeometry`; and with
a valid exterior and valid preceding interiors, an interior ring whose
signed area is zero or shares the exterior's positive sign is rejected
with `InvalidPolygonGeometry`.  (Without the no-overflow hypothesis the
area computation can panic instead; empty rings give
`EmptyPolygonGeometry`.) -/
theorem c4_ring_orientation_amended :
    (∀ (ext : List TileCoord) (ints : List (List TileCoord)),
        3 ≤ ext.length → (ring_area ext).isSome = true → shoelace ext = 0 →
        Geometry.encode (.Polygon ext ints) =
          some (.error .InvalidPolygonGeometry)) ∧
    (∀ (ext : List TileCoord) (ints : List (List TileCoord)),
        3 ≤ ext.length → (ring_area ext).isSome = true → shoelace ext < 0 →
        Geometry.encode (.Polygon ext ints) =
          some (.error .InvalidPolygonGeometry)) ∧
    (∀ (ext r : List TileCoord) (ints1 ints2 : List (List TileCoord)),
        3 ≤ ext.length → (ring_area ext).isSome = true → 0 < shoelace ext →
        (∀ r' ∈ ints1,
          3 ≤ r'.length ∧ (ring_area r').isSome = true ∧ shoelace r' < 0) →
        3 ≤ r.length → (ring_area r).isSome = true → 0 ≤ shoelace r →
        Geometry.encode (.Polygon ext (ints1 ++ r :: ints2)) =
          some (.error .InvalidPolygonGeometry)) := by
  refine ⟨?_, ?_, ?_⟩
  · intro ext ints h3 ha hz
    have hne : ext.isEmpty = false := by
      cases ext with
      | nil => simp at h3
      | cons a t => simp
    simp [Geometry.encode, hne, encode_ring_zero ext h3 ha hz]
  · intro ext ints h3 ha hlt
    have hne : ext.isEmpty = false := by
      cases ext with
      | nil => simp at h3
      | cons a t => simp
    simp [Geometry.encode, hne, encode_ring_ok ext h3 ha (by omega), hlt]
  · intro ext r ints1 ints2 h3 ha hpos hints1 hr3 hra hsign
    have hne : ext.isEmpty = false := by
      cases ext with
      | nil => simp at h3
      | cons a t => simp
    have hre := encode_ring_ok ext h3 ha (by omega)
    have hnneg : ¬ (shoelace ext < 0) := by omega
    have hint : encodeRingsCommands (ints1 ++ r :: ints2) =
        some (.error .InvalidPolygonGeometry) :=
      encodeRings_err_append ints1 (r :: ints2) hints1 _
        (encodeRings_head_bad r ints2 hr3 hra hsign)
    simp [Geometry.encode, hne, hre, hnneg, hint]

/-- C4 witness: a zero-area exterior, a negatively wound exterior, and a
positively wound interior are each rejected. -/
theorem c4_ring_orientation_amended_witness :
    Geometry.encode (.Polygon [(0, 0), (1, 1), (2, 2)] []) =
      some (.error .InvalidPolygonGeometry) ∧
    Geometry.encode (.Polygon [(0, 0), (0, 1), (1, 1)] []) =
      some (.error .InvalidPolygonGeometry) ∧
    Geometry.encode (.Polygon [(0, 0), (2, 0), (1, 2)] [[(0, 0), (1, 0), (1, 1)]]) =
      some (.error .InvalidPolygonGeometry) :=
  ⟨c4_ring_orientation_amended.1 [(0, 0), (1, 1), (2, 2)] []
      (by decide) (by decide) (by decide),
   c4_ring_orientation_amended.2.1 [(0, 0), (0, 1), (1, 1)] []
      (by decide) (by decide) (by decide),
   c4_ring_orientation_amended.2.2 [(0, 0), (2, 0), (1, 2)] [(0, 0), (1, 0), (1, 1)]
      [] [] (by decide) (by decide) (by decide) (by decide) (by decide) (by decide)
      (by decide)⟩

/-- C6 (amended).  `Geometry::encode` never panics — it returns `Ok` or
one of the five `InvalidGeometry` errors — provided every cursor delta
fits in i32 and the staged i32 shoelace evaluation of every ring stays in
range; for arbitrary i32 coordinates the claim fails because the shoelace
multiplication (e.g. `65536 * 65536`) overflows and panics under overflow
checks. -/
theorem c6_no_panic_amended (g : Geometry) (har : areasDef g)
    (hdl : deltasOK (0, 0) (coordsOf g)) :
    ∃ r, Geometry.encode g = some r := by
  cases g with
  | Point p =>
    have hdl' : deltasOK (0, 0) [p] := hdl
    have he := encode_geometry_points p [] hdl'
    simp only [List.map_cons, List.map_nil] at he
    exact ⟨.ok ⟨.POINT, mpStream [p]⟩, by simp only [Geometry.encode, he]⟩
  | MultiPoint ps =>
    cases ps with
    | nil => exact ⟨.error .EmptyPointGeometry, by simp [Geometry.encode]⟩
    | cons p ps' =>
      have hdl' : deltasOK (0, 0) (p :: ps') := hdl
      have he := encode_geometry_points p ps' hdl'
      exact ⟨.ok ⟨.POINT, mpStream (p :: ps')⟩,
        by simp only [Geometry.encode, List.isEmpty_cons, Bool.false_eq_true,
          if_false, he]⟩
  | Line l =>
    by_cases hl : l.isEmpty = true
    · exact ⟨.error .EmptyLineGeometry, by simp [Geometry.encode, hl]⟩
    · have hl' : l.isEmpty = false := by simpa using hl
      cases hline : encode_line l with
      | error e =>
        exact ⟨.error e, by simp [Geometry.encode, hl', hline]⟩
      | ok cs =>
        obtain ⟨h2, rfl⟩ := encode_line_ok_inv l cs hline
        have hstream := encode_geometry_lines [l]
          (by intro l' hm; simp only [List.mem_singleton] at hm; subst hm; exact h2)
          (by simpa using hdl)
        simp only [List.flatMap_cons, List.flatMap_nil, List.append_nil] at hstream
        exact ⟨.ok ⟨.LINESTRING, lineStreams (0, 0) [l]⟩,
          by simp only [Geometry.encode, hl', Bool.false_eq_true, if_false,
            hline, hstream]⟩
  | MultiLine ls =>
    by_cases hl : ls.isEmpty = true
    · exact ⟨.error .EmptyLineGeometry, by simp [Geometry.encode, hl]⟩
    · have hl' : ls.isEmpty = false := by simpa using hl
      cases hls : encodeLinesCommands ls with
      | error e =>
        exact ⟨.error e, by simp [Geometry.encode, hl', hls]⟩
      | ok cs =>
        obtain ⟨h2, rfl⟩ := encodeLinesCommands_ok_inv ls cs hls
        have hstream := encode_geometry_lines ls h2 hdl
        exact ⟨.ok ⟨.LINESTRING, lineStreams (0, 0) ls⟩,
          by simp only [Geometry.encode, hl', Bool.false_eq_true, if_false,
            hls, hstream]⟩
  | Polygon e is =>
    by_cases hce : e.isEmpty = true
    · exact ⟨.error .EmptyPolygonGeometry, by simp [Geometry.encode, hce]⟩
    · have hce' : e.isEmpty = false := by simpa using hce
      have harE : (ring_area e).isSome = true := har e (by simp [ringsOf])
      obtain ⟨res, hres⟩ := encode_ring_isSome e harE
      cases res with
      | error er =>
        exact ⟨.error er, by simp [Geometry.encode, hce', hres]⟩
      | ok ac =>
        obtain ⟨a, c⟩ := ac
        by_cases hneg : a < 0
        · exact ⟨.error .InvalidPolygonGeometry,
            by simp [Geometry.encode, hce', hres, hneg]⟩
        · obtain ⟨res2, hres2⟩ := encodeRings_isSome is
            (fun r hm => har r (by simp [ringsOf, hm]))
          cases res2 with
          | error er =>
            exact ⟨.error er, by simp [Geometry.encode, hce', hres, hneg, hres2]⟩
          | ok intCs =>
            obtain ⟨hlen, rfl⟩ := encode_ring_ok_inv e a c hres
            obtain ⟨hall, rfl⟩ := encodeRings_ok_inv is intCs hres2
            have hflat : deltasOK (0, 0) ((e :: is).flatten) := by
              simpa [coordsOf, List.flatten_cons] using hdl
            have hstream := encode_geometry_rings (e :: is)
              (by
                intro r hm
                rcases List.mem_cons.mp hm with rfl | hm2
                · omega
                · exact hall r hm2)
              hflat
            simp only [List.flatMap_cons] at hstream
            exact ⟨.ok ⟨.POLYGON, ringStreams (0, 0) (e :: is)⟩,
              by simp only [Geometry.encode, hce', Bool.false_eq_true, if_false,
                hres, hneg, if_false, hres2, hstream]⟩

/-- C6 witness: a negatively wound triangle satisfies the bounds and the
encoder returns (an error) without panicking. -/
theorem c6_no_panic_amended_witness :
    ∃ r, Geometry.encode (.Polygon [(0, 0), (0, 1), (1, 1)] []) = some r :=
  c6_no_panic_amended (.Polygon [(0, 0), (0, 1), (1, 1)] []) (by decide) (by decide)

/-! ### Deduplication and lookup-table lemmas -/

theorem foldl_insBy_eq_dedupBy {α : Type} (eq : α → α → Bool) :
    ∀ (l acc : List α),
    l.foldl (insBy eq) acc =
      acc ++ dedupBy eq (l.filter (fun v => !(acc.any (fun x => eq x v)))) := by
  intro l
  induction l with
  | nil => intro acc; simp [dedupBy]
  | cons v l ih =>
    intro acc
    simp only [List.foldl_cons]
    by_cases hmem : acc.any (fun x => eq x v) = true
    · rw [show insBy eq acc v = acc from by simp [insBy, hmem]]
      rw [ih acc]
      congr 2
      simp [List.filter_cons, hmem]
    · have hmem' : acc.any (fun x => eq x v) = false := by
        simpa using hmem
      rw [show insBy eq acc v = acc ++ [v] from by simp [insBy, hmem']]
      rw [ih (acc ++ [v])]
      rw [List.append_assoc]
      congr 1
      rw [show (v :: l).filter (fun w => !(acc.any (fun x => eq x w))) =
            v :: l.filter (fun w => !(acc.any (fun x => eq x w))) from by
        simp [List.filter_cons, hmem']]
      rw [show dedupBy eq (v :: l.filter (fun w => !(acc.any (fun x => eq x w)))) =
            v :: dedupBy eq ((l.filter (fun w => !(acc.any (fun x => eq x w)))).filter
              (fun y => !(eq v y))) from by rw [dedupBy]]
      rw [List.filter_filter, List.singleton_append]
      congr 2
      apply List.filter_congr
      intro w _
      simp only [List.any_append, List.any_cons, List.any_nil, Bool.or_false,
        Bool.not_or]
      rw [Bool.and_comm]

theorem foldl_insBy_nil {α : Type} (eq : α → α → Bool) (l : List α) :
    l.foldl (insBy eq) [] = dedupBy eq l := by
  rw [foldl_insBy_eq_dedupBy]
  simp

theorem dedupBy_mem {α : Type} (eq : α → α → Bool) :
    ∀ (l : List α) (a : α), a ∈ dedupBy eq l → a ∈ l := by
  have main : ∀ (n : Nat) (l : List α), l.length ≤ n →
      ∀ a ∈ dedupBy eq l, a ∈ l := by
    intro n
    induction n with
    | zero =>
      intro l hl a ha
      cases l with
      | nil => simpa [dedupBy] using ha
      | cons x xs => simp at hl
    | succ n ih =>
      intro l hl a ha
      cases l with
      | nil => simpa [dedupBy] using ha
      | cons x xs =>
        rw [dedupBy] at ha
        rcases List.mem_cons.mp ha with rfl | hmem
        · simp
        · have hlen : (xs.filter (fun y => !(eq x y))).length ≤ n :=
            le_trans (List.length_filter_le _ _) (by simpa using hl)
          have hin := ih _ hlen a hmem
          exact List.mem_cons.mpr (Or.inr (List.mem_of_mem_filter hin))
  exact fun l a ha => main l.length l le_rfl a ha

theorem dedupBy_pairwise {α : Type} (eq : α → α → Bool) :
    ∀ (l : List α), (dedupBy eq l).Pairwise (fun a b => eq a b = false) := by
  have main : ∀ (n : Nat) (l : List α), l.length ≤ n →
      (dedupBy eq l).Pairwise (fun a b => eq a b = false) := by
    intro n
    induction n with
    | zero =>
      intro l hl
      cases l with
      | nil => simp [dedupBy]
      | cons x xs => simp at hl
    | succ n ih =>
      intro l hl
      cases l with
      | nil => simp [dedupBy]
      | cons x xs =>
        rw [dedupBy]
        have hlen : (xs.filter (fun y => !(eq x y))).length ≤ n :=
          le_trans (List.length_filter_le _ _) (by simpa using hl)
        refine List.Pairwise.cons ?_ (ih _ hlen)
        intro b hb
        have hbf := dedupBy_mem eq _ b hb
        have := (List.mem_filter.mp hbf).2
        simpa using this
  exact fun l => main l.length l le_rfl

theorem lookupKey_append (l1 l2 : List (String × Nat)) (k : String) :
    lookupKey (l1 ++ l2) k = (lookupKey l1 k).or (lookupKey l2 k) := by
  induction l1 with
  | nil => simp [lookupKey]
  | cons e l1 ih =>
    obtain ⟨k0, i0⟩ := e
    by_cases h : (k0 == k) = true
    · simp [lookupKey, h]
    · have h' : (k0 == k) = false := by simpa using h
      simp [lookupKey, h', ih]

theorem findIdx?_append_some {α : Type} {p : α → Bool} {l : List α} {i : Nat}
    (ext : List α) (h : List.findIdx? p l = some i) :
    List.findIdx? p (l ++ ext) = some i := by
  rw [List.findIdx?_append, h]
  rfl

theorem findIdx?_append_none {α : Type} {p : α → Bool} {l : List α}
    (ext : List α) (h : List.findIdx? p l = none) :
    List.findIdx? p (l ++ ext) = (List.findIdx? p ext).map (· + l.length) := by
  rw [List.findIdx?_append, h]
  rfl

theorem findIdx_of_findIdx? {α : Type} {p : α → Bool} {l : List α} {i : Nat}
    (h : List.findIdx? p l = some i) : List.findIdx p l = i := by
  simp [List.findIdx_eq_findIdx?, h]

theorem findIdx?_singleton_self (k : String) :
    List.findIdx? (fun x => x == k) [k] = some 0 := by
  simp [List.findIdx?_cons]

theorem findIdx?_new_key (keys : List String) (k : String)
    (h : List.findIdx? (fun x => x == k) keys = none) :
    List.findIdx? (fun x => x == k) (keys ++ [k]) = some keys.length := by
  rw [findIdx?_append_none _ h, findIdx?_singleton_self]
  simp

theorem findIdx?_new_value (values : List Value) (v : Value)
    (hv : valueEq v v = true)
    (h : List.findIdx? (fun w => valueEq w v) values = none) :
    List.findIdx? (fun w => valueEq w v) (values ++ [v]) = some values.length := by
  rw [findIdx?_append_none _ h]
  have : List.findIdx? (fun w => valueEq w v) [v] = some 0 := by
    simp [List.findIdx?_cons, hv]
  rw [this]
  simp

theorem any_of_findIdx?_some {α : Type} {p : α → Bool} {l : List α} {i : Nat}
    (h : List.findIdx? p l = some i) : l.any p = true := by
  rw [← List.findIdx?_isSome, h]
  rfl

theorem any_of_findIdx?_none {α : Type} {p : α → Bool} {l : List α}
    (h : List.findIdx? p l = none) : l.any p = false := by
  rw [← List.findIdx?_isSome, h]
  rfl

theorem internValue_found (values : List Value) (v : Value) (j : Nat)
    (hfv : List.findIdx? (fun w => valueEq w v) values = some j) :
    internValue values v = (j, values) := by
  unfold internValue
  rw [hfv]

theorem internValue_new (values : List Value) (v : Value)
    (hfv : List.findIdx? (fun w => valueEq w v) values = none) :
    internValue values v = (values.length, values ++ [v]) := by
  unfold internValue
  rw [hfv]

theorem internKey_found (keys : List String) (lookup : List (String × Nat))
    (k : String) (i : Nat)
    (hinv : ∀ k, lookupKey lookup k = List.findIdx? (fun x => x == k) keys)
    (hfi : List.findIdx? (fun x => x == k) keys = some i) :
    internKey keys lookup k = (i, keys, lookup) := by
  unfold internKey
  rw [hinv k, hfi]

theorem internKey_new (keys : List String) (lookup : List (String × Nat))
    (k : String)
    (hinv : ∀ k, lookupKey lookup k = List.findIdx? (fun x => x == k) keys)
    (hfi : List.findIdx? (fun x => x == k) keys = none) :
    internKey keys lookup k = (keys.length, keys ++ [k], lookup ++ [(k, keys.length)]) := by
  unfold internKey
  rw [hinv k, hfi]

theorem lookup_inv_extend (keys : List String) (lookup : List (String × Nat))
    (k : String)
    (hinv : ∀ k, lookupKey lookup k = List.findIdx? (fun x => x == k) keys) :
    ∀ k1, lookupKey (lookup ++ [(k, keys.length)]) k1 =
      List.findIdx? (fun x => x == k1) (keys ++ [k]) := by
  intro k1
  rw [lookupKey_append, hinv k1, List.findIdx?_append]
  congr 1
  by_cases hk : (k == k1) = true
  · simp [lookupKey, hk, List.findIdx?_cons]
  · have hk' : (k == k1) = false := by simpa using hk
    simp [lookupKey, hk', List.findIdx?_cons]

/-- The per-feature tag-interning loop: on success the key/value tables
are the insert-folds of the processed keys/values, the lookup invariant is
preserved, the tables only grow, and the emitted index list is the
per-tag (key index, value index) pairs measured against Any extension of
the final tables. -/
theorem internTagsAux_spec : ∀ (tags : List (String × Value)) (keys : List String)
    (lookup : List (String × Nat)) (values : List Value) (seen enc : List Nat)
    (K1 : List String) (L1 : List (String × Nat)) (V1 : List Value) (E1 : List Nat),
    (∀ k, lookupKey lookup k = List.findIdx? (fun x => x == k) keys) →
    (∀ kv ∈ tags, valueEq kv.2 kv.2 = true) →
    internTagsAux keys lookup values seen enc tags = .ok (K1, L1, V1, E1) →
    K1 = (tags.map Prod.fst).foldl (insBy (fun a b => a == b)) keys ∧
    V1 = (tags.map Prod.snd).foldl (insBy valueEq) values ∧
    (∀ k, lookupKey L1 k = List.findIdx? (fun x => x == k) K1) ∧
    (∃ ek, K1 = keys ++ ek) ∧ (∃ ev, V1 = values ++ ev) ∧
    (∀ (Kf : List String) (Vf : List Value),
      (∃ ek, Kf = K1 ++ ek) → (∃ ev, Vf = V1 ++ ev) →
      E1 = enc ++ tags.flatMap (fun kv =>
        [List.findIdx (fun x => x == kv.1) Kf,
         List.findIdx (fun w => valueEq w kv.2) Vf])) := by
  intro tags
  induction tags with
  | nil =>
    intro keys lookup values seen enc K1 L1 V1 E1 hinv _ h
    simp only [internTagsAux, Except.ok.injEq, Prod.mk.injEq] at h
    obtain ⟨h1, h2, h3, h4⟩ := h
    subst h1; subst h2; subst h3; subst h4
    exact ⟨by simp, by simp, hinv, ⟨[], by simp⟩, ⟨[], by simp⟩,
      fun Kf Vf _ _ => by simp⟩
  | cons kv tags ih =>
    intro keys lookup values seen enc K1 L1 V1 E1 hinv hnn h
    obtain ⟨k, v⟩ := kv
    have hvv : valueEq v v = true := hnn (k, v) (by simp)
    cases hfi : List.findIdx? (fun x => x == k) keys with
    | some i =>
      have hik := internKey_found keys lookup k i hinv hfi
      simp only [internTagsAux, hik] at h
      by_cases hseen : seen.contains i = true
      · rw [if_pos hseen] at h
        simp at h
      · have hseen' : seen.contains i = false := by simpa using hseen
        rw [hseen'] at h
        simp only [Bool.false_eq_true, if_false] at h
        cases hfv : List.findIdx? (fun w => valueEq w v) values with
        | some j =>
          have hiv := internValue_found values v j hfv
          simp only [hiv] at h
          obtain ⟨hK, hV, hL, ⟨ek, hek⟩, ⟨ev, hev⟩, hE⟩ :=
            ih keys lookup values (seen ++ [i]) (enc ++ [i] ++ [j]) K1 L1 V1 E1
              hinv (fun kv hm => hnn kv (by simp [hm])) h
          refine ⟨?_, ?_, hL, ⟨ek, hek⟩, ⟨ev, hev⟩, ?_⟩
          · rw [hK]
            simp only [List.map_cons, List.foldl_cons]
            congr 1
            simp [insBy, any_of_findIdx?_some hfi]
          · rw [hV]
            simp only [List.map_cons, List.foldl_cons]
            congr 1
            simp [insBy, any_of_findIdx?_some hfv]
          · intro Kf Vf hKf hVf
            obtain ⟨ekf, hekf⟩ := hKf
            obtain ⟨evf, hevf⟩ := hVf
            have hkidx : List.findIdx (fun x => x == k) Kf = i := by
              apply findIdx_of_findIdx?
              rw [hekf, hek, List.append_assoc]
              exact findIdx?_append_some _ hfi
            have hvidx : List.findIdx (fun w => valueEq w v) Vf = j := by
              apply findIdx_of_findIdx?
              rw [hevf, hev, List.append_assoc]
              exact findIdx?_append_some _ hfv
            rw [hE Kf Vf ⟨ekf, hekf⟩ ⟨evf, hevf⟩]
            simp [List.flatMap_cons, hkidx, hvidx, List.append_assoc]
        | none =>
          have hiv := internValue_new values v hfv
          simp only [hiv] at h
          obtain ⟨hK, hV, hL, ⟨ek, hek⟩, ⟨ev, hev⟩, hE⟩ :=
            ih keys lookup (values ++ [v]) (seen ++ [i]) (enc ++ [i] ++ [values.length])
              K1 L1 V1 E1 hinv (fun kv hm => hnn kv (by simp [hm])) h
          have hfv' := findIdx?_new_value values v hvv hfv
          refine ⟨?_, ?_, hL, ⟨ek, hek⟩, ⟨[v] ++ ev, by rw [hev, List.append_assoc]⟩, ?_⟩
          · rw [hK]
            simp only [List.map_cons, List.foldl_cons]
            congr 1
            simp [insBy, any_of_findIdx?_some hfi]
          · rw [hV]
            simp only [List.map_cons, List.foldl_cons]
            congr 1
            simp [insBy, any_of_findIdx?_none hfv]
          · intro Kf Vf hKf hVf
            obtain ⟨ekf, hekf⟩ := hKf
            obtain ⟨evf, hevf⟩ := hVf
            have hkidx : List.findIdx (fun x => x == k) Kf = i := by
              apply findIdx_of_findIdx?
              rw [hekf, hek, List.append_assoc]
              exact findIdx?_append_some _ hfi
            have hvidx : List.findIdx (fun w => valueEq w v) Vf = values.length := by
              apply findIdx_of_findIdx?
              rw [hevf, hev, List.append_assoc]
              exact findIdx?_append_some _ hfv'
            rw [hE Kf Vf ⟨ekf, hekf⟩ ⟨evf, hevf⟩]
            simp [List.flatMap_cons, hkidx, hvidx, List.append_assoc]
    | none =>
      have hik := internKey_new keys lookup k hinv hfi
      simp only [internTagsAux, hik] at h
      by_cases hseen : seen.contains keys.length = true
      · rw [if_pos hseen] at h
        simp at h
      · have hseen' : seen.contains keys.length = false := by simpa using hseen
        rw [hseen'] at h
        simp only [Bool.false_eq_true, if_false] at h
        have hinv' := lookup_inv_extend keys lookup k hinv
        have hfi' := findIdx?_new_key keys k hfi
        cases hfv : List.findIdx? (fun w => valueEq w v) values with
        | some j =>
          have hiv := internValue_found values v j hfv
          simp only [hiv] at h
          obtain ⟨hK, hV, hL, ⟨ek, hek⟩, ⟨ev, hev⟩, hE⟩ :=
            ih (keys ++ [k]) (lookup ++ [(k, keys.length)]) values (seen ++ [keys.length])
              (enc ++ [keys.length] ++ [j]) K1 L1 V1 E1
              hinv' (fun kv hm => hnn kv (by simp [hm])) h
          refine ⟨?_, ?_, hL, ⟨[k] ++ ek, by rw [hek, List.append_assoc]⟩,
            ⟨ev, hev⟩, ?_⟩
          · rw [hK]
            simp only [List.map_cons, List.foldl_cons]
            congr 1
            simp [insBy, any_of_findIdx?_none hfi]
          · rw [hV]
            simp only [List.map_cons, List.foldl_cons]
            congr 1
            simp [insBy, any_of_findIdx?_some hfv]
          · intro Kf Vf hKf hVf
            obtain ⟨ekf, hekf⟩ := hKf
            obtain ⟨evf, hevf⟩ := hVf
            have hkidx : List.findIdx (fun x => x == k) Kf = keys.length := by
              apply findIdx_of_findIdx?
              rw [hekf, hek, List.append_assoc]
              exact findIdx?_append_some _ hfi'
            have hvidx : List.findIdx (fun w => valueEq w v) Vf = j := by
              apply findIdx_of_findIdx?
              rw [hevf, hev, List.append_assoc]
              exact findIdx?_append_some _ hfv
            rw [hE Kf Vf ⟨ekf, hekf⟩ ⟨evf, hevf⟩]
            simp [List.flatMap_cons, hkidx, hvidx, List.append_assoc]
        | none =>
          have hiv := internValue_new values v hfv
          simp only [hiv] at h
          obtain ⟨hK, hV, hL, ⟨ek, hek⟩, ⟨ev, hev⟩, hE⟩ :=
            ih (keys ++ [k]) (lookup ++ [(k, keys.length)]) (values ++ [v])
              (seen ++ [keys.length]) (enc ++ [keys.length] ++ [values.length])
              K1 L1 V1 E1 hinv' (fun kv hm => hnn kv (by simp [hm])) h
          have hfv' := findIdx?_new_value values v hvv hfv
          refine ⟨?_, ?_, hL, ⟨[k] ++ ek, by rw [hek, List.append_assoc]⟩,
            ⟨[v] ++ ev, by rw [hev, List.append_assoc]⟩, ?_⟩
          · rw [hK]
            simp only [List.map_cons, List.foldl_cons]
            congr 1
            simp [insBy, any_of_findIdx?_none hfi]
          · rw [hV]
            simp only [List.map_cons, List.foldl_cons]
            congr 1
            simp [insBy, any_of_findIdx?_none hfv]
          · intro Kf Vf hKf hVf
            obtain ⟨ekf, hekf⟩ := hKf
            obtain ⟨evf, hevf⟩ := hVf
            have hkidx : List.findIdx (fun x => x == k) Kf = keys.length := by
              apply findIdx_of_findIdx?
              rw [hekf, hek, List.append_assoc]
              exact findIdx?_append_some _ hfi'
            have hvidx : List.findIdx (fun w => valueEq w v) Vf = values.length := by
              apply findIdx_of_findIdx?
              rw [hevf, hev, List.append_assoc]
              exact findIdx?_append_some _ hfv'
            rw [hE Kf Vf ⟨ekf, hekf⟩ ⟨evf, hevf⟩]
            simp [List.flatMap_cons, hkidx, hvidx, List.append_assoc]

theorem encodeFeaturesTagsAux_spec : ∀ (fs : List Feature) (keys : List String)
    (lookup : List (String × Nat)) (values : List Value)
    (K : List String) (V : List Value) (encs : List (List Nat)),
    (∀ k, lookupKey lookup k = List.findIdx? (fun x => x == k) keys) →
    (∀ f ∈ fs, ∀ kv ∈ f.tags, valueEq kv.2 kv.2 = true) →
    encodeFeaturesTagsAux keys lookup values fs = .ok (K, V, encs) →
    K = (allKeys fs).foldl (insBy (fun a b => a == b)) keys ∧
    V = (allValues fs).foldl (insBy valueEq) values ∧
    (∃ ek, K = keys ++ ek) ∧ (∃ ev, V = values ++ ev) ∧
    encs = fs.map (fun f => specEncTags K V f.tags) := by
  intro fs
  induction fs with
  | nil =>
    intro keys lookup values K V encs hinv hnn h
    simp only [encodeFeaturesTagsAux, Except.ok.injEq, Prod.mk.injEq] at h
    obtain ⟨h1, h2, h3⟩ := h
    subst h1; subst h2; subst h3
    exact ⟨by simp [allKeys], by simp [allValues], ⟨[], by simp⟩, ⟨[], by simp⟩,
      by simp⟩
  | cons f fs ihf =>
    intro keys lookup values K V encs hinv hnn h
    simp only [encodeFeaturesTagsAux] at h
    cases hi : internTagsAux keys lookup values [] [] f.tags with
    | error e => rw [hi] at h; simp at h
    | ok r =>
      obtain ⟨K1, L1, V1, E1⟩ := r
      simp only [hi] at h
      cases hrec : encodeFeaturesTagsAux K1 L1 V1 fs with
      | error e => rw [hrec] at h; simp at h
      | ok r2 =>
        obtain ⟨K2, V2, encs2⟩ := r2
        simp only [hrec, Except.ok.injEq, Prod.mk.injEq] at h
        obtain ⟨hKK, hVV, hEE⟩ := h
        subst hKK; subst hVV; subst hEE
        obtain ⟨hK1, hV1, hL1, ⟨ek1, hek1⟩, ⟨ev1, hev1⟩, hE1⟩ :=
          internTagsAux_spec f.tags keys lookup values [] [] K1 L1 V1 E1 hinv
            (fun kv hm => hnn f (by simp) kv hm) hi
        obtain ⟨hK2, hV2, ⟨ek2, hek2⟩, ⟨ev2, hev2⟩, hencs2⟩ :=
          ihf K1 L1 V1 K2 V2 encs2 hL1 (fun f1 hm => hnn f1 (by simp [hm])) hrec
        refine ⟨?_, ?_, ⟨ek1 ++ ek2, by rw [hek2, hek1, List.append_assoc]⟩,
          ⟨ev1 ++ ev2, by rw [hev2, hev1, List.append_assoc]⟩, ?_⟩
        · rw [hK2, hK1]
          simp [allKeys, List.flatMap_cons, List.foldl_append]
        · rw [hV2, hV1]
          simp [allValues, List.flatMap_cons, List.foldl_append]
        · have hEf := hE1 K2 V2 ⟨ek2, hek2⟩ ⟨ev2, hev2⟩
          simp only [List.nil_append] at hEf
          rw [List.map_cons, ← hencs2, hEf]
          rfl

theorem encode_features_tags_spec (fs : List Feature) (K : List String)
    (V : List Value) (encs : List (List Nat)) (hnn : noNaN fs)
    (h : encode_features_tags fs = .ok (K, V, encs)) :
    K = dedupBy (fun a b => a == b) (allKeys fs) ∧
    V = dedupBy valueEq (allValues fs) ∧
    encs = fs.map (fun f => specEncTags K V f.tags) := by
  have hinv : ∀ k, lookupKey [] k = List.findIdx? (fun x => x == k) [] := by
    intro k
    simp [lookupKey]
  obtain ⟨hK, hV, _, _, hencs⟩ :=
    encodeFeaturesTagsAux_spec fs [] [] [] K V encs hinv hnn h
  exact ⟨by rw [hK, foldl_insBy_nil], by rw [hV, foldl_insBy_nil], hencs⟩

theorem encodeFeaturesTagsAux_length : ∀ (fs : List Feature) (keys : List String)
    (lookup : List (String × Nat)) (values : List Value)
    (K : List String) (V : List Value) (encs : List (List Nat)),
    encodeFeaturesTagsAux keys lookup values fs = .ok (K, V, encs) →
    encs.length = fs.length := by
  intro fs
  induction fs with
  | nil =>
    intro keys lookup values K V encs h
    simp only [encodeFeaturesTagsAux, Except.ok.injEq, Prod.mk.injEq] at h
    simp [← h.2.2]
  | cons f fs ih =>
    intro keys lookup values K V encs h
    simp only [encodeFeaturesTagsAux] at h
    cases hi : internTagsAux keys lookup values [] [] f.tags with
    | error e => rw [hi] at h; simp at h
    | ok r =>
      obtain ⟨K1, L1, V1, E1⟩ := r
      simp only [hi] at h
      cases hrec : encodeFeaturesTagsAux K1 L1 V1 fs with
      | error e => rw [hrec] at h; simp at h
      | ok r2 =>
        obtain ⟨K2, V2, encs2⟩ := r2
        simp only [hrec, Except.ok.injEq, Prod.mk.injEq] at h
        have := ih K1 L1 V1 K2 V2 encs2 hrec
        rw [← h.2.2]
        simp [this]

/-- `Layer::encode_features` characterized: it fails with
`IdenticalFeatureIds` at the first feature whose declared id repeats an
earlier declared id, and otherwise assembles every feature in order with
wire id `id.unwrap_or(0)`. -/
theorem encodeFeaturesAux_spec : ∀ (pairs : List (Feature × List Nat)) (seen : List Nat),
    encodeFeaturesAux seen pairs =
      match firstDupIdAux seen (pairs.map Prod.fst) with
      | some i => .error (.IdenticalFeatureIds i)
      | none => .ok (pairs.map (fun fe => assembleFeature fe.1 fe.2)) := by
  intro pairs
  induction pairs with
  | nil => intro seen; simp [encodeFeaturesAux, firstDupIdAux]
  | cons fe pairs ih =>
    intro seen
    obtain ⟨f, enc⟩ := fe
    cases hid : f.id with
    | none =>
      simp only [encodeFeaturesAux, firstDupIdAux, List.map_cons, hid]
      rw [ih seen]
      cases firstDupIdAux seen (pairs.map Prod.fst) <;> simp
    | some i =>
      simp only [encodeFeaturesAux, firstDupIdAux, List.map_cons, hid]
      by_cases hseen : seen.contains i = true
      · rw [if_pos hseen, if_pos hseen]
      · rw [if_neg hseen, if_neg hseen]
        rw [ih (seen ++ [i])]
        cases firstDupIdAux (seen ++ [i]) (pairs.map Prod.fst) <;> simp

/-! ### Amended claim theorems for the attribute interner and layer -/

/-- C7 (amended).  For every feature list accepted by `Layer::new` whose
tag values are all self-equal under the code's `Value` equality (no NaN
float/double payloads): the key table is the first-seen deduplication of
all tag keys, the value table is the first-seen deduplication (under the
code's `Value` equality, i.e. IEEE comparison for floats) of all tag
values, both tables are duplicate-free under that equality, and every
feature's tags are rewritten to the (key index, value index) pairs into
the final tables — so identical `(key, value)` pairs of different
features reference the same indices and the output is deterministic.
Without the no-NaN restriction the claim fails: NaN values are re-interned
on every occurrence. -/
theorem c7_interner_tables_amended (name : String) (fs : List Feature)
    (layer : Layer) (hnn : noNaN fs) (h : Layer.new name fs = .ok layer) :
    layer.keys = dedupBy (fun a b => a == b) (allKeys fs) ∧
    layer.values = dedupBy valueEq (allValues fs) ∧
    layer.keys.Nodup ∧
    layer.values.Pairwise (fun a b => valueEq a b = false) ∧
    layer.features.map PbfFeature.tags =
      fs.map (fun f => specEncTags layer.keys layer.values f.tags) := by
  unfold Layer.new at h
  by_cases hemp : fs.isEmpty = true
  · rw [if_pos hemp] at h
    simp at h
  · have hemp' : fs.isEmpty = false := by simpa using hemp
    rw [hemp'] at h
    simp only [Bool.false_eq_true, if_false] at h
    cases htags : encode_features_tags fs with
    | error e => rw [htags] at h; simp at h
    | ok t =>
      obtain ⟨keys, values, encs⟩ := t
      simp only [htags] at h
      have hlen := encodeFeaturesTagsAux_length fs [] [] [] keys values encs htags
      have hfst : (fs.zip encs).map Prod.fst = fs :=
        List.map_fst_zip fs encs (by omega)
      have hEF := encodeFeaturesAux_spec (fs.zip encs) []
      rw [hfst] at hEF
      cases hdup : firstDupIdAux [] fs with
      | some i =>
        rw [hdup] at hEF
        simp only [hEF] at h
        exact absurd h (by simp)
      | none =>
        rw [hdup] at hEF
        simp only [hEF] at h
        have hlayer : layer =
            ⟨name, (fs.zip encs).map (fun fe => assembleFeature fe.1 fe.2),
              keys, values, 4096⟩ := by
          simpa using h.symm
        subst hlayer
        obtain ⟨hK, hV, hencs⟩ := encode_features_tags_spec fs keys values encs hnn htags
        refine ⟨hK, hV, ?_, ?_, ?_⟩
        · rw [hK]
          have hp := dedupBy_pairwise (fun a b => a == b) (allKeys fs)
          exact hp.imp (fun hab => ne_of_beq_false hab)
        · rw [hV]
          exact dedupBy_pairwise valueEq (allValues fs)
        · show ((fs.zip encs).map (fun fe => assembleFeature fe.1 fe.2)).map
              PbfFeature.tags = _
          rw [List.map_map]
          rw [show (PbfFeature.tags ∘ fun fe : Feature × List Nat =>
                assembleFeature fe.1 fe.2) =
              (fun fe : Feature × List Nat => fe.2) from rfl]
          rw [List.map_snd_zip fs encs (by omega), hencs]

/-- C7 witness: a two-feature layer with shared keys and values interns
into first-seen deduplicated tables and index pairs. -/
theorem c7_interner_tables_amended_witness :
    (["a", "b"] : List String) =
        dedupBy (fun a b => a == b)
          (allKeys ([⟨some 5, [("a", .Int 1), ("b", .Int 2)], ⟨.UNKNOWN, []⟩⟩,
                     ⟨none, [("b", .Int 2), ("a", .Int 3)], ⟨.UNKNOWN, []⟩⟩] :
            List Feature)) ∧
    ([Value.Int 1, Value.Int 2, Value.Int 3] : List Value) =
        dedupBy valueEq
          (allValues ([⟨some 5, [("a", .Int 1), ("b", .Int 2)], ⟨.UNKNOWN, []⟩⟩,
                       ⟨none, [("b", .Int 2), ("a", .Int 3)], ⟨.UNKNOWN, []⟩⟩] :
            List Feature)) ∧
    (["a", "b"] : List String).Nodup ∧
    ([Value.Int 1, Value.Int 2, Value.Int 3] : List Value).Pairwise
      (fun a b => valueEq a b = false) ∧
    ([[0, 0, 1, 1], [1, 1, 0, 2]] : List (List Nat)) =
      ([⟨some 5, [("a", .Int 1), ("b", .Int 2)], ⟨.UNKNOWN, []⟩⟩,
        ⟨none, [("b", .Int 2), ("a", .Int 3)], ⟨.UNKNOWN, []⟩⟩] : List Feature).map
        (fun f => specEncTags ["a", "b"] [Value.Int 1, Value.Int 2, Value.Int 3]
          f.tags) := by
  have h := c7_interner_tables_amended "L"
    [⟨some 5, [("a", .Int 1), ("b", .Int 2)], ⟨.UNKNOWN, []⟩⟩,
     ⟨none, [("b", .Int 2), ("a", .Int 3)], ⟨.UNKNOWN, []⟩⟩]
    ⟨"L", [⟨5, [0, 0, 1, 1], .UNKNOWN, []⟩, ⟨0, [1, 1, 0, 2], .UNKNOWN, []⟩],
      ["a", "b"], [Value.Int 1, Value.Int 2, Value.Int 3], 4096⟩
    (by decide) (by decide)
  obtain ⟨h1, h2, h3, h4, h5⟩ := h
  exact ⟨h1, h2, h3, h4, h5⟩

/-- C8 (amended).  Provided the attribute-key interning of the feature
list succeeds (and the list is non-empty), `Layer::new` fails with
`IdenticalFeatureIds(id)` exactly at the first feature (in input order)
whose declared id repeats an earlier declared id; id-less features are
exempt from the check and every assembled feature carries wire id
`id.unwrap_or(0)`, making an absent id indistinguishable from an explicit
id 0.  (Without the proviso an `IdenticalAttributeKeys` error from the
tag interning preempts the id check.) -/
theorem c8_duplicate_ids_amended (name : String) (fs : List Feature)
    (keys : List String) (values : List Value) (encs : List (List Nat))
    (hne : fs ≠ []) (htags : encode_features_tags fs = .ok (keys, values, encs)) :
    (∀ i, firstDupId fs = some i →
        Layer.new name fs = .error (.IdenticalFeatureIds i)) ∧
    (firstDupId fs = none →
        ∃ layer, Layer.new name fs = .ok layer ∧
          layer.features.map PbfFeature.id = fs.map (fun f => f.id.getD 0)) := by
  have hlen := encodeFeaturesTagsAux_length fs [] [] [] keys values encs htags
  have hfst : (fs.zip encs).map Prod.fst = fs := List.map_fst_zip fs encs (by omega)
  have hemp : fs.isEmpty = false := by
    cases fs with
    | nil => exact absurd rfl hne
    | cons a t => simp
  have hEF := encodeFeaturesAux_spec (fs.zip encs) []
  rw [hfst] at hEF
  constructor
  · intro i hdup
    unfold firstDupId at hdup
    rw [hdup] at hEF
    unfold Layer.new
    rw [hemp]
    simp only [Bool.false_eq_true, if_false, htags, hEF]
  · intro hnone
    unfold firstDupId at hnone
    rw [hnone] at hEF
    refine ⟨⟨name, (fs.zip encs).map (fun fe => assembleFeature fe.1 fe.2),
      keys, values, 4096⟩, ?_, ?_⟩
    · unfold Layer.new
      rw [hemp]
      simp only [Bool.false_eq_true, if_false, htags, hEF]
    · show ((fs.zip encs).map (fun fe => assembleFeature fe.1 fe.2)).map
          PbfFeature.id = _
      rw [List.map_map]
      rw [show (PbfFeature.id ∘ fun fe : Feature × List Nat =>
            assembleFeature fe.1 fe.2) =
          ((fun f : Feature => f.id.getD 0) ∘ Prod.fst) from rfl]
      rw [← List.map_map, hfst]

/-- C8 witness: a duplicated id 1 is rejected at the second feature, and
without duplicates an id-less feature assembles with wire id 0 exactly
like an explicit id 0. -/
theorem c8_duplicate_ids_amended_witness :
    Layer.new "t" [⟨some 1, [], ⟨.UNKNOWN, []⟩⟩, ⟨some 1, [], ⟨.UNKNOWN, []⟩⟩] =
      .error (.IdenticalFeatureIds 1) ∧
    ∃ layer,
      Layer.new "t" [⟨some 0, [], ⟨.UNKNOWN, []⟩⟩, ⟨none, [], ⟨.UNKNOWN, []⟩⟩] =
        .ok layer ∧
      layer.features.map PbfFeature.id = [0, 0] := by
  constructor
  · exact (c8_duplicate_ids_amended "t"
      [⟨some 1, [], ⟨.UNKNOWN, []⟩⟩, ⟨some 1, [], ⟨.UNKNOWN, []⟩⟩]
      [] [] [[], []] (by decide) (by decide)).1 1 (by decide)
  · obtain ⟨layer, h1, h2⟩ := (c8_duplicate_ids_amended "t"
      [⟨some 0, [], ⟨.UNKNOWN, []⟩⟩, ⟨none, [], ⟨.UNKNOWN, []⟩⟩]
      [] [] [[], []] (by decide) (by decide)).2 (by decide)
    refine ⟨layer, h1, ?_⟩
    rw [h2]
    rfl

/-! ### Closed evaluations of the embedded encoder -/

/-- C1.  The claim states that the emitted ClosePath command word carries
a run-length count of 1 and therefore equals `(7 & 0x7) | (1 << 3) = 15`.
Evaluating the encoder on a polygon shows the emitted stream contains the
bare command id `7` and never the required `15`: the `ClosePath` arm of
`encode_command` drops the count bits. -/
theorem c1_closepath_word_emitted_as_7 :
    Geometry.encode (.Polygon [(0, 0), (2, 0), (1, 2)] []) =
      some (.ok ⟨.POLYGON, [9, 0, 0, 7, 18, 4, 0, 1, 4]⟩) ∧
    7 ∈ [9, 0, 0, 7, 18, 4, 0, 1, 4] ∧ 15 ∉ [9, 0, 0, 7, 18, 4, 0, 1, 4] := by
  decide

/-- C2.  The claim states that for a polygon ring the ClosePath word is
emitted after the ring's LineTo run words.  Evaluating the encoder on a
triangle shows the stream `[9, 0, 0, 7, 18, 6, 0, 5, 6]`: the ClosePath
word `7` precedes the LineTo command word `18` and its parameters, because
the loop pushes the ClosePath word immediately while the pending LineTo
run is only flushed afterwards. -/
theorem c2_closepath_word_before_line_run :
    Geometry.encode (.Polygon [(0, 0), (3, 0), (0, 3)] []) =
      some (.ok ⟨.POLYGON, [9, 0, 0, 7, 18, 6, 0, 5, 6]⟩) ∧
    [9, 0, 0, 7, 18, 6, 0, 5, 6].take 4 = [9, 0, 0, 7] := by
  decide

/-- C3 counterexample.  A two-point line meets the claimed minimum
lengths, yet `encode` does not return `Ok`: the cursor delta
`2147483647 - (-2147483648)` overflows i32 and the encoder panics
(modelled as `none`). -/
theorem c3_counterexample_delta_overflow :
    2 ≤ ([(-2147483648, 0), (2147483647, 0)] : List TileCoord).length ∧
    Geometry.encode (.Line [(-2147483648, 0), (2147483647, 0)]) = none := by
  decide

/-- C4 counterexample.  A degenerate (collinear) large-coordinate exterior
ring has shoelace signed area zero, but instead of being rejected with
`InvalidPolygonGeometry` the staged i32 area computation overflows at
`65536 * 131072` and panics (modelled as `none`). -/
theorem c4_counterexample_area_overflow :
    shoelace [(0, 0), (65536, 65536), (131072, 131072)] = 0 ∧
    Geometry.encode (.Polygon [(0, 0), (65536, 65536), (131072, 131072)] []) = none := by
  decide

/-- C5.  The claim states that `IdenticalAttributeKeys` carries exactly
the repeated key.  Evaluating `Layer::new` on a single feature with tag
keys `a, b, a` shows the error carries `"b"` — the most recently interned
key (`keys.last()`), not the repeated key `"a"`. -/
theorem c5_attribute_key_error_carries_last_interned_key :
    Layer.new "t"
        [⟨none, [("a", .Bool true), ("b", .Bool true), ("a", .Bool false)],
          ⟨.UNKNOWN, []⟩⟩] =
      .error (.IdenticalAttributeKeys "b") := by
  decide

/-- C6 counterexample.  All coordinates of this triangle are in i32 range,
yet `Geometry::encode` hits an arithmetic-overflow panic (modelled as
`none`): the shoelace product `65536 * 65536` exceeds `i32::MAX`. -/
theorem c6_counterexample_shoelace_overflow :
    (∀ p ∈ coordsOf (.Polygon [(65536, 0), (65536, 65536), (0, 65536)] []),
      inI32 p.1 ∧ inI32 p.2) ∧
    Geometry.encode (.Polygon [(65536, 0), (65536, 65536), (0, 65536)] []) = none := by
  decide

/-- C7 counterexample.  Two features carrying the bit-identical NaN double
`0x7FF8000000000000` are accepted by `Layer::new`, but the value table
receives two identical entries and the two identical `(key, value)` pairs
are rewritten to different value indices (0 and 1), because the linear
scan compares with IEEE equality, under which NaN matches nothing. -/
theorem c7_counterexample_nan_duplicate_values :
    Layer.new "t"
        [⟨none, [("k", Value.Double 9221120237041090560)], ⟨.UNKNOWN, []⟩⟩,
         ⟨none, [("k", Value.Double 9221120237041090560)], ⟨.UNKNOWN, []⟩⟩] =
      .ok ⟨"t",
        [⟨0, [0, 0], .UNKNOWN, []⟩, ⟨0, [0, 1], .UNKNOWN, []⟩],
        ["k"],
        [Value.Double 9221120237041090560, Value.Double 9221120237041090560],
        4096⟩ ∧
    ¬ ([Value.Double 9221120237041090560,
        Value.Double 9221120237041090560].Nodup) := by
  decide

/-- C8 counterexample.  A feature list whose first duplicated declared id
is 1 does not make `Layer::new` fail with `IdenticalFeatureIds(1)`:
the attribute-key interning runs first and its `IdenticalAttributeKeys`
error preempts the id check. -/
theorem c8_counterexample_tag_error_preempts_id_check :
    firstDupId
        [⟨some 1, [], ⟨.UNKNOWN, []⟩⟩,
         ⟨some 1, [("k", .Bool true), ("k", .Bool false)], ⟨.UNKNOWN, []⟩⟩] = some 1 ∧
    Layer.new "t"
        [⟨some 1, [], ⟨.UNKNOWN, []⟩⟩,
         ⟨some 1, [("k", .Bool true), ("k", .Bool false)], ⟨.UNKNOWN, []⟩⟩] =
      .error (.IdenticalAttributeKeys "k") := by
  decide

/-- C9.  The claim states that `Value` equality compares `Float`/`Double`
payloads bit-exactly, so that +0.0 and -0.0 are unequal.  The derived
equality actually uses IEEE-754 `==`: +0.0 equals -0.0 for both widths
although their bit patterns differ, and a NaN is unequal to itself. -/
theorem c9_value_float_equality_is_ieee_not_bitwise :
    valueEq (.Double 0) (.Double 9223372036854775808) = true ∧
    valueEq (.Float 0) (.Float 2147483648) = true ∧
    (0 : Nat) ≠ 9223372036854775808 ∧
    valueEq (.Double 9221120237041090560) (.Double 9221120237041090560) = false := by
  decide

/-- C10.  Encoding `Geometry::MultiLine` applied to an empty list of lines
returns `Err(EmptyLineGeometry)`. -/
theorem c10_empty_multiline_rejected :
    Geometry.encode (.MultiLine []) = some (.error .EmptyLineGeometry) := by
  decide

end Mvt
